import Mathlib

/-!
Shallow embedding of the RLM summary-tree system (storage, sanitizer,
token buffer, chunkers, validator/repair, navigator tools) and proofs
about the behaviours its specification describes.

Texts are modelled as Lean `String`s; the character-level passes of the
sanitizer work on `List Char` (Python `str` indexing is by code point,
which matches `String.data`).  Scanning loops are written with an explicit
fuel argument -- always instantiated with the length of the scanned list,
which over-approximates the number of steps -- so that every definition
evaluates by kernel reduction.
-/

namespace RLM

/-- Python's `needle in hay` substring test on code-point lists. -/
def hasSub (hay needle : List Char) : Bool :=
  match hay with
  | [] => needle.isEmpty
  | _ :: t => needle.isPrefixOf hay || hasSub t needle

/-- Whitespace characters stripped by Python `str.strip()` (ASCII part). -/
def isPySpace (c : Char) : Bool :=
  c = ' ' || c = '\t' || c = '\n' || c = '\r' || c = '\x0b' || c = '\x0c'

/-- Python `str.strip()`: drop leading and trailing whitespace. -/
def stripChars (l : List Char) : List Char :=
  ((l.dropWhile isPySpace).reverse.dropWhile isPySpace).reverse

/-- Suffix of `l` strictly after the first occurrence of `needle`
(the occurrence itself is consumed); `[]` if there is none. -/
def afterSub (l needle : List Char) : List Char :=
  match l with
  | [] => []
  | _ :: cs => if needle.isPrefixOf l then l.drop needle.length else afterSub cs needle

theorem afterSub_length_le (l needle : List Char) :
    (afterSub l needle).length ≤ l.length := by
  induction l with
  | nil => simp [afterSub]
  | cons c cs ih =>
    simp only [afterSub]
    split
    · simp [List.length_drop]
    · exact Nat.le_trans ih (Nat.le_succ _)

/-- The open and close tags of a think block. -/
def thinkOpen : List Char := "<think>".data

def thinkClose : List Char := "</think>".data

/-- Fuelled scanner for `re.sub(r"<think>.*?</think>", "", text, flags=re.DOTALL)`:
at each position where `<think>` starts and a `</think>` follows somewhere later,
delete through the earliest such `</think>` and resume scanning after it;
otherwise keep the character.  Matching is case-sensitive, exactly as in the
source (no `re.IGNORECASE` flag is passed). -/
def removeThinksF : ℕ → List Char → List Char
  | 0, l => l
  | fuel + 1, l =>
    match l with
    | [] => []
    | c :: cs =>
      if thinkOpen.isPrefixOf (c :: cs) && hasSub ((c :: cs).drop 7) thinkClose then
        removeThinksF fuel (afterSub ((c :: cs).drop 7) thinkClose)
      else
        c :: removeThinksF fuel cs

/-- One left-to-right pass of think-block removal. -/
def removeThinks (l : List Char) : List Char :=
  removeThinksF l.length l

/-- Word character of the regex `\w` (for the texts at hand, ASCII). -/
def isWordChar (c : Char) : Bool :=
  c.isAlphanum || c = '_'

/-- Fuelled scanner for `re.sub(r"```(?:\w+)?\n?", '', text)`: at each
occurrence of three backticks, also consume the maximal run of word
characters and at most one following newline, and resume after the match. -/
def removeFencesF : ℕ → List Char → List Char
  | 0, l => l
  | fuel + 1, l =>
    match l with
    | [] => []
    | c :: cs =>
      if "```".data.isPrefixOf (c :: cs) then
        let rest := ((c :: cs).drop 3).dropWhile isWordChar
        removeFencesF fuel (if rest.head? = some '\n' then rest.tail else rest)
      else
        c :: removeFencesF fuel cs

def removeFences (l : List Char) : List Char :=
  removeFencesF l.length l

/-- Fuelled scanner for Python `text.replace("###", "")`: remove all
non-overlapping occurrences, left to right. -/
def removeHashesF : ℕ → List Char → List Char
  | 0, l => l
  | fuel + 1, l =>
    match l with
    | [] => []
    | c :: cs =>
      if "###".data.isPrefixOf (c :: cs) then removeHashesF fuel ((c :: cs).drop 3)
      else c :: removeHashesF fuel cs

def removeHashes (l : List Char) : List Char :=
  removeHashesF l.length l

/-- `clean_summary_text` from `src/core/storage.py`: think-block removal,
code-fence removal, `###` removal, then `strip()` (applied twice, as the
source both assigns `text.strip()` and returns `text.strip()`). -/
def clean_summary_text (s : String) : String :=
  if s = "" then s
  else ⟨stripChars (stripChars (removeHashes (removeFences (removeThinks s.data))))⟩

example : clean_summary_text "<think>x\ny</think>hello" = "hello" := by decide
example : clean_summary_text "```markdown\nHello" = "Hello" := by decide
example : clean_summary_text "a ### b" = "a  b" := by decide
example : clean_summary_text "<THINK>x</THINK>ok" = "<THINK>x</THINK>ok" := by decide

theorem removeThinksF_congr :
    ∀ (f g : ℕ) (l : List Char), l.length ≤ f → l.length ≤ g →
      removeThinksF f l = removeThinksF g l := by
  intro f
  induction f with
  | zero =>
    intro g l hf _
    have : l = [] := List.length_eq_zero.mp (Nat.le_antisymm hf (Nat.zero_le _))
    subst this
    cases g <;> simp [removeThinksF]
  | succ f ih =>
    intro g l hf hg
    match l with
    | [] => cases g <;> simp [removeThinksF]
    | c :: cs =>
      match g with
      | 0 => simp at hg
      | g + 1 =>
        simp only [removeThinksF]
        have hcs : cs.length ≤ f := by simpa using hf
        have hcs' : cs.length ≤ g := by simpa using hg
        split
        · have hlen : (afterSub ((c :: cs).drop 7) thinkClose).length ≤ cs.length := by
            have h1 := afterSub_length_le ((c :: cs).drop 7) thinkClose
            have h2 : ((c :: cs).drop 7).length ≤ cs.length := by
              simp [List.length_drop]
            omega
          exact ih g _ (Nat.le_trans hlen hcs) (Nat.le_trans hlen hcs')
        · exact congrArg (c :: ·) (ih g cs hcs hcs')

theorem removeThinksF_eq (f : ℕ) (l : List Char) (h : l.length ≤ f) :
    removeThinksF f l = removeThinks l :=
  removeThinksF_congr f l.length l h (Nat.le_refl _)

theorem removeThinks_id_of_not_open :
    ∀ l : List Char, hasSub l thinkOpen = false → removeThinks l = l := by
  have key : ∀ (f : ℕ) (l : List Char), l.length ≤ f →
      hasSub l thinkOpen = false → removeThinksF f l = l := by
    intro f
    induction f with
    | zero =>
      intro l hf _
      simp [removeThinksF]
    | succ f ih =>
      intro l hf hsub
      match l with
      | [] => simp [removeThinksF]
      | c :: cs =>
        have hpre : thinkOpen.isPrefixOf (c :: cs) = false := by
          simp only [hasSub, Bool.or_eq_false_iff] at hsub
          exact hsub.1
        have htail : hasSub cs thinkOpen = false := by
          simp only [hasSub, Bool.or_eq_false_iff] at hsub
          exact hsub.2
        simp only [removeThinksF, hpre, Bool.false_and, if_neg (Bool.false_ne_true)]
        exact congrArg (c :: ·) (ih cs (by simpa using hf) htail)
  intro l h
  exact key l.length l (Nat.le_refl _) h

theorem hasSub_tail (c : Char) (cs n : List Char) (h : hasSub cs n = true) :
    hasSub (c :: cs) n = true := by
  simp [hasSub, h]

theorem hasSub_append_self (b c n : List Char) (hn : n ≠ []) :
    hasSub (b ++ n ++ c) n = true := by
  induction b with
  | nil =>
    match n with
    | x :: xs =>
      have : (x :: xs).isPrefixOf ((x :: xs) ++ c) = true :=
        List.isPrefixOf_iff_prefix.mpr (List.prefix_append _ _)
      simp [hasSub, this]
  | cons y b ih =>
    exact hasSub_tail y _ n ih

theorem afterSub_cons (c : Char) (cs n : List Char) :
    afterSub (c :: cs) n =
      if n.isPrefixOf (c :: cs) then (c :: cs).drop n.length else afterSub cs n := rfl

theorem afterSub_of_first (b c n : List Char) (hn : n ≠ [])
    (hb : ∀ i, i < b.length → n.isPrefixOf ((b ++ n ++ c).drop i) = false) :
    afterSub (b ++ n ++ c) n = c := by
  induction b with
  | nil =>
    match n with
    | x :: xs =>
      have hpre : (x :: xs).isPrefixOf ((x :: xs) ++ c) = true :=
        List.isPrefixOf_iff_prefix.mpr (List.prefix_append _ _)
      show afterSub ((x :: xs) ++ c) (x :: xs) = c
      rw [show (x :: xs) ++ c = x :: (xs ++ c) from rfl, afterSub_cons]
      rw [show x :: (xs ++ c) = (x :: xs) ++ c from rfl, if_pos hpre, List.drop_left]
  | cons y b ih =>
    have h0 : n.isPrefixOf (y :: (b ++ n ++ c)) = false := by
      simpa using hb 0 (by simp)
    show afterSub (y :: (b ++ n ++ c)) n = c
    rw [afterSub_cons, if_neg (by rw [h0]; exact Bool.false_ne_true)]
    exact ih (fun i hi => by simpa using hb (i + 1) (by simpa using Nat.succ_lt_succ hi))

theorem removeThinksF_cons (f : ℕ) (c : Char) (cs : List Char) :
    removeThinksF (f + 1) (c :: cs) =
      if thinkOpen.isPrefixOf (c :: cs) && hasSub ((c :: cs).drop 7) thinkClose then
        removeThinksF f (afterSub ((c :: cs).drop 7) thinkClose)
      else c :: removeThinksF f cs := rfl

theorem removeThinks_block (b c : List Char)
    (hb : ∀ i, i < b.length →
      thinkClose.isPrefixOf ((b ++ thinkClose ++ c).drop i) = false) :
    removeThinks (thinkOpen ++ (b ++ thinkClose ++ c)) = removeThinks c := by
  have hne : thinkClose ≠ [] := by decide
  set rest := b ++ thinkClose ++ c with hrest
  have hpre : thinkOpen.isPrefixOf (thinkOpen ++ rest) = true :=
    List.isPrefixOf_iff_prefix.mpr (List.prefix_append _ _)
  have hdrop : (thinkOpen ++ rest).drop 7 = rest := by
    have h7 : thinkOpen.length = 7 := by decide
    rw [← h7, List.drop_left]
  have hsub : hasSub ((thinkOpen ++ rest).drop 7) thinkClose = true := by
    rw [hdrop, hrest]
    exact hasSub_append_self b c thinkClose hne
  have hlen : (thinkOpen ++ rest).length = rest.length + 7 := by
    simp [thinkOpen]
  have hcons : thinkOpen ++ rest = '<' :: ("think>".data ++ rest) := rfl
  unfold removeThinks
  rw [hlen, show rest.length + 7 = (rest.length + 6) + 1 from rfl, hcons,
    removeThinksF_cons, ← hcons, if_pos (by rw [hpre, hsub]; rfl)]
  rw [hdrop, hrest, afterSub_of_first b c thinkClose hne hb]
  apply removeThinksF_eq
  have h8 : thinkClose.length = 8 := by decide
  simp only [hrest, List.length_append, h8]
  omega

/-- C7 counterexample: the sanitizer leaves an upper-case `<THINK>…</THINK>`
block untouched, so removal is not case-insensitive as claimed: the input
contains the block (second conjunct) and is returned unchanged (first). -/
theorem C7_counterexample :
    clean_summary_text "<THINK>secret</THINK> visible" = "<THINK>secret</THINK> visible" ∧
    hasSub "<THINK>secret</THINK> visible".data "<THINK>".data = true := by
  decide

/-- C7 (amended): the sanitizer's think pass removes `<think>…</think>` blocks
across multiple lines, in one left-to-right pass, each block reaching to the
earliest following `</think>`; but matching is case-sensitive: any text with no
lower-case `<think>` occurrence (in particular upper-case variants) is returned
unchanged. -/
theorem C7_think_removal :
    (∀ l : List Char, hasSub l thinkOpen = false → removeThinks l = l) ∧
    (∀ b c : List Char,
      (∀ i, i < b.length →
        thinkClose.isPrefixOf ((b ++ thinkClose ++ c).drop i) = false) →
      removeThinks (thinkOpen ++ (b ++ thinkClose ++ c)) = removeThinks c) :=
  ⟨removeThinks_id_of_not_open, removeThinks_block⟩

/-- C7 witness: the upper-case text is untouched; a lower-case multi-line block
is removed. -/
theorem C7_think_removal_witness :
    removeThinks "<THINK>a</THINK>".data = "<THINK>a</THINK>".data ∧
    removeThinks ("<think>".data ++ ("x\ny".data ++ thinkClose ++ " ok".data)) =
      removeThinks " ok".data :=
  ⟨C7_think_removal.1 "<THINK>a</THINK>".data (by decide),
   C7_think_removal.2 "x\ny".data " ok".data (by decide)⟩

/-! ## Token meter (`src/utils/token_buffer.py`)

The tokenizer itself is the external `tiktoken` library; it is modelled as an
abstract lawful encoding: a function from texts to token lists such that
decoding (concatenating the tokens) restores the text, and no token is empty.
`count_tokens` and `get_chunk_at` are translated from the source. -/

/-- A lawful tokenizer: tokens concatenate back to the encoded text and are
never empty. `decode` is concatenation, as for tiktoken's byte-pair tokens. -/
structure Encoding where
  encode : List Char → List (List Char)
  flatten_encode : ∀ s, (encode s).flatten = s
  ne_nil_of_mem_encode : ∀ s t, t ∈ encode s → t ≠ []

/-- `TokenBuffer.count_tokens`: 0 for empty text, else the encoded length. -/
def count_tokens (e : Encoding) (s : List Char) : ℕ :=
  if s.isEmpty then 0 else (e.encode s).length

/-- `TokenBuffer.get_chunk_at(max_tokens, text)`: empty for empty text; the
text itself if it fits; otherwise the decode of the first `max_tokens`
tokens. -/
def get_chunk_at (e : Encoding) (maxTokens : ℕ) (s : List Char) : List Char :=
  if s.isEmpty then []
  else
    let tokens := e.encode s
    if tokens.length ≤ maxTokens then s
    else (tokens.take maxTokens).flatten

/-- The property claimed of `truncate_to`: the result is the longest prefix of
`s` whose token count is at most `m`. -/
def LongestFittingPrefix (e : Encoding) (m : ℕ) (s p : List Char) : Prop :=
  p <+: s ∧ count_tokens e p ≤ m ∧
    ∀ q : List Char, q <+: s → count_tokens e q ≤ m → q.length ≤ p.length

theorem flatten_map_singleton (s : List Char) :
    (s.map (fun c => [c])).flatten = s := by
  induction s with
  | nil => rfl
  | cons c cs ih => simpa using ih

/-- The one-character-per-token encoding. -/
def charEncoding : Encoding where
  encode s := s.map (fun c => [c])
  flatten_encode s := flatten_map_singleton s
  ne_nil_of_mem_encode s t ht := by
    simp only [List.mem_map] at ht
    obtain ⟨c, _, hc⟩ := ht
    simp [← hc]

/-- A lawful encoding exhibiting byte-pair behaviour: the two-character text
`ab` is a single token, while any other text is one token per character. -/
def toyEncoding : Encoding where
  encode s := if s = "ab".data then ["ab".data] else s.map (fun c => [c])
  flatten_encode s := by
    show (if s = "ab".data then ["ab".data] else s.map (fun c => [c])).flatten = s
    split
    · subst ‹s = "ab".data›; rfl
    · exact flatten_map_singleton s
  ne_nil_of_mem_encode s t ht := by
    have ht' : t ∈ (if s = "ab".data then ["ab".data] else s.map (fun c => [c])) := ht
    split at ht'
    · simp only [List.mem_singleton] at ht'
      subst ht'
      decide
    · simp only [List.mem_map] at ht'
      obtain ⟨c, _, hc⟩ := ht'
      simp [← hc]

/-- C4 counterexample: with a lawful byte-pair-style encoding in which `ab` is
one token but `abc` is three, `truncate_to("abc", 1)` returns `"a"` although
the longer prefix `"ab"` also fits in one token — the result is not the
longest fitting prefix. -/
theorem C4_counterexample :
    ¬ LongestFittingPrefix toyEncoding 1 "abc".data
        (get_chunk_at toyEncoding 1 "abc".data) := by
  intro h
  have h2 := h.2.2 "ab".data ⟨['c'], by decide⟩ (by decide)
  have h1 : get_chunk_at toyEncoding 1 "abc".data = "a".data := by decide
  rw [h1] at h2
  exact absurd h2 (by decide)

/-- C4 (amended): `truncate_to(text, max_tokens)` returns the decode of the
first `max_tokens` tokens of `text`'s encoding — always a prefix of `text`,
and `text` itself, byte-identical, whenever its token count already fits —
but this is not in general the longest prefix whose own token count fits. -/
theorem C4_truncate_to (e : Encoding) (m : ℕ) (s : List Char) :
    get_chunk_at e m s <+: s ∧
    get_chunk_at e m s =
      (if count_tokens e s ≤ m then s else ((e.encode s).take m).flatten) := by
  unfold get_chunk_at count_tokens
  by_cases hs : s.isEmpty
  · have : s = [] := by simpa [List.isEmpty_iff] using hs
    subst this
    simp
  · simp only [hs, Bool.false_eq_true, if_false]
    by_cases hm : (e.encode s).length ≤ m
    · simp [hm]
    · simp only [if_neg hm]
      exact ⟨⟨((e.encode s).drop m).flatten,
        by rw [← List.flatten_append, List.take_append_drop, e.flatten_encode]⟩, trivial⟩

/-- C4 witness: on the one-token-per-character encoding, truncating `abc` to
two tokens yields a prefix equal to the decode of the first two tokens. -/
theorem C4_truncate_to_witness :
    get_chunk_at charEncoding 2 "abc".data <+: "abc".data ∧
    get_chunk_at charEncoding 2 "abc".data =
      (if count_tokens charEncoding "abc".data ≤ 2 then "abc".data
       else ((charEncoding.encode "abc".data).take 2).flatten) :=
  C4_truncate_to charEncoding 2 "abc".data

/-! ## Chunkers (`src/chunking/fixed.py`, `src/chunking/llm.py`)

Both `chunk_text` generators are while-loops over a character index; they are
embedded as fuel-indexed step functions returning the emitted chunks together
with a completion flag (for the fixed chunker) or a status (for the
LLM-boundary chunker, whose loop body can raise).  The fuel is the caller's
choice; `text.length` bounds the iteration count whenever every step advances
the index. -/

/-- Python `text[i:j]` for `0 ≤ i ≤ j` (code-point slicing). -/
def pySlice (l : List Char) (i j : ℕ) : List Char :=
  (l.drop i).take (j - i)

/-- `ChunkResult` from `src/chunking/base.py`. -/
structure ChunkResult where
  text : List Char
  start_index : ℕ
  end_index : ℕ
deriving DecidableEq

/-- Loop of `FixedTokenChunker.chunk_text`.  Returns the chunks yielded so far
and `true` iff the loop reached its exit (`false` = fuel ran out with the loop
still running, i.e. at least `fuel` further iterations were needed). -/
def fixedChunkGo (e : Encoding) (maxTokens : ℕ) (r : ℚ) (text : List Char) :
    ℕ → ℕ → List ChunkResult × Bool
  | 0, idx => if idx < text.length then ([], false) else ([], true)
  | fuel + 1, idx =>
    if idx < text.length then
      let rawEnd := min (idx + maxTokens * 6) text.length
      let window := pySlice text idx rawEnd
      let chunk := get_chunk_at e maxTokens window
      let absEnd := idx + chunk.length
      let res : ChunkResult := ⟨chunk, idx, absEnd⟩
      if text.length ≤ absEnd then ([res], true)
      else
        let overlap := (Int.floor ((chunk.length : ℚ) * r)).toNat
        let next := fixedChunkGo e maxTokens r text fuel (absEnd - overlap)
        (res :: next.1, next.2)
    else ([], true)

/-- `FixedTokenChunker.chunk_text` run with fuel `text.length`. -/
def chunk_text_fixed (e : Encoding) (maxTokens : ℕ) (r : ℚ) (text : List Char) :
    List ChunkResult × Bool :=
  fixedChunkGo e maxTokens r text text.length 0

/-- Outcome of the LLM-boundary chunker's loop. -/
inductive SemStatus where
  | done
  | fuelOut
  | raised
deriving DecidableEq

/-- `SemanticBoundaryChunker._find_cut_point` on a window of length `L`.
The model call plus JSON extraction (external LLM, `_extract_json`, `int(...)`)
is abstracted as an outcome: `.error` when any of them throws (the source then
logs and re-raises), `.ok (cut?, next?)` for a parsed object with optional
integer fields (defaults `len(text)` and `len(text) - 100` are applied here,
then both indices are clamped into `[0, L]` and the overlap rule applied,
exactly as in the source). -/
def find_cut_point (L : ℕ) (resp : Except Unit (Option ℤ × Option ℤ)) :
    Except Unit (ℕ × ℕ) :=
  match resp with
  | .error e => .error e
  | .ok (cutField, nextField) =>
    let cut : ℤ := min (max 0 (cutField.getD (L : ℤ))) (L : ℤ)
    let next : ℤ := min (max 0 (nextField.getD ((L : ℤ) - 100))) (L : ℤ)
    let next2 : ℤ := if cut ≤ next then max 0 (cut - 50) else next
    .ok (cut.toNat, next2.toNat)

/-- One iteration's control data of `SemanticBoundaryChunker.chunk_text` at
index `idx`, consuming response number `k`: the window is sized by
`max_tokens * CHARS_PER_TOKEN_ESTIMATE`, trimmed by the token buffer, handed
to `_find_cut_point`; then `cut_rel = min(cut, len(valid_window))` and the
`next_start_rel >= cut_rel` overlap adjustment.  `none` when the model
call/parse raised. -/
def semStepData (e : Encoding) (maxTokens : ℕ)
    (resp : ℕ → Except Unit (Option ℤ × Option ℤ)) (text : List Char)
    (k idx : ℕ) : Option (ℕ × ℕ) :=
  let rawEnd := min (idx + maxTokens * 6) text.length
  let window := pySlice text idx rawEnd
  let validWindow := get_chunk_at e maxTokens window
  match find_cut_point validWindow.length (resp k) with
  | .error _ => none
  | .ok (cut0, next0) =>
    let cutRel := min cut0 validWindow.length
    some (cutRel, if cutRel ≤ next0 then ((cutRel : ℤ) - 50).toNat else next0)

/-- Loop of `SemanticBoundaryChunker.chunk_text`: yield `text[idx : idx+cut]`,
stop when the end is reached, else advance by `next_start_rel`; propagate a
raise from `_find_cut_point`. -/
def semChunkGo (e : Encoding) (maxTokens : ℕ)
    (resp : ℕ → Except Unit (Option ℤ × Option ℤ)) (text : List Char) :
    ℕ → ℕ → ℕ → List ChunkResult × SemStatus
  | 0, idx, _ => if idx < text.length then ([], .fuelOut) else ([], .done)
  | fuel + 1, idx, k =>
    if idx < text.length then
      match semStepData e maxTokens resp text k idx with
      | none => ([], .raised)
      | some (cutRel, nextStartRel) =>
        let absEnd := idx + cutRel
        let res : ChunkResult := ⟨pySlice text idx absEnd, idx, absEnd⟩
        if text.length ≤ absEnd then ([res], .done)
        else
          let next := semChunkGo e maxTokens resp text fuel (idx + nextStartRel) (k + 1)
          (res :: next.1, next.2)
    else ([], .done)

/-- `SemanticBoundaryChunker.chunk_text` run with fuel `text.length`. -/
def chunk_text_sem (e : Encoding) (maxTokens : ℕ)
    (resp : ℕ → Except Unit (Option ℤ × Option ℤ)) (text : List Char) :
    List ChunkResult × SemStatus :=
  semChunkGo e maxTokens resp text text.length 0 0

/-- C6 counterexample: with a failing model call on the very first step, the
LLM-boundary chunker emits no chunk at all and the exception propagates to the
caller (status `raised`), contradicting the claim that a valid chunk is still
emitted for that step. -/
theorem C6_counterexample :
    chunk_text_sem charEncoding 5 (fun _ => .error ()) "hi".data = ([], .raised) := by
  decide

/-- C6 (amended): when the model call or JSON parsing fails at a step that the
loop reaches, `_find_cut_point` re-raises and `chunk_text` propagates the
exception to the caller, emitting no chunk for that step (and none after it). -/
theorem C6_raise_propagates (e : Encoding) (maxTokens : ℕ)
    (resp : ℕ → Except Unit (Option ℤ × Option ℤ)) (text : List Char)
    (fuel idx k : ℕ) (hidx : idx < text.length) (herr : resp k = .error ()) :
    semChunkGo e maxTokens resp text (fuel + 1) idx k = ([], .raised) := by
  have hstep : semStepData e maxTokens resp text k idx = none := by
    unfold semStepData find_cut_point
    rw [herr]
  unfold semChunkGo
  rw [if_pos hidx, hstep]

/-- C6 witness: concrete failing first step. -/
theorem C6_raise_propagates_witness :
    semChunkGo charEncoding 5 (fun _ => .error ()) "hi".data 2 0 0 = ([], .raised) :=
  C6_raise_propagates charEncoding 5 (fun _ => .error ()) "hi".data 1 0 0
    (by decide) rfl

theorem get_chunk_at_ne_nil (e : Encoding) (m : ℕ) (s : List Char)
    (hm : 1 ≤ m) (hs : s ≠ []) : get_chunk_at e m s ≠ [] := by
  unfold get_chunk_at
  rw [if_neg (by simpa [List.isEmpty_iff] using hs)]
  dsimp only
  split
  · exact hs
  · intro hcontra
    have htok_ne : e.encode s ≠ [] := by
      intro h0
      apply hs
      have hfe := e.flatten_encode s
      rw [h0] at hfe
      simpa using hfe.symm
    obtain ⟨t, ts, hts⟩ : ∃ t ts, e.encode s = t :: ts := by
      cases h : e.encode s with
      | nil => exact absurd h htok_ne
      | cons a b => exact ⟨a, b, rfl⟩
    obtain ⟨m', rfl⟩ : ∃ m', m = m' + 1 := ⟨m - 1, by omega⟩
    rw [hts, List.take_succ_cons, List.flatten_cons] at hcontra
    have ht : t = [] := (List.append_eq_nil.mp hcontra).1
    exact e.ne_nil_of_mem_encode s t (by rw [hts]; exact List.mem_cons_self _ _) ht

theorem floor_mul_ratio_lt (n : ℕ) (r : ℚ) (h1 : 1 ≤ n) (h3 : r < 1) :
    (Int.floor ((n : ℚ) * r)).toNat < n := by
  have hq : (n : ℚ) * r < (n : ℚ) := by
    calc (n : ℚ) * r < (n : ℚ) * 1 := by
          apply mul_lt_mul_of_pos_left h3
          exact_mod_cast Nat.lt_of_lt_of_le Nat.zero_lt_one h1
      _ = n := mul_one _
  have hz : Int.floor ((n : ℚ) * r) < (n : ℤ) := by
    rw [Int.floor_lt]
    push_cast
    exact hq
  omega

theorem pySlice_length (l : List Char) (i j : ℕ) :
    (pySlice l i j).length = min (j - i) (l.length - i) := by
  simp [pySlice, List.length_take, List.length_drop]

theorem fixedChunkGo_ok (e : Encoding) (m : ℕ) (r : ℚ) (text : List Char)
    (hm : 1 ≤ m) (hr0 : 0 ≤ r) (hr1 : r < 1) :
    ∀ (fuel idx : ℕ), text.length - idx ≤ fuel →
      (fixedChunkGo e m r text fuel idx).2 = true ∧
      ∀ ch ∈ (fixedChunkGo e m r text fuel idx).1, ch.text ≠ [] := by
  intro fuel
  induction fuel with
  | zero =>
    intro idx h
    have : ¬ idx < text.length := by omega
    simp [fixedChunkGo, this]
  | succ fuel ih =>
    intro idx h
    by_cases hidx : idx < text.length
    · unfold fixedChunkGo
      rw [if_pos hidx]
      have hwinlen : (pySlice text idx (min (idx + m * 6) text.length)).length =
          min (min (idx + m * 6) text.length - idx) (text.length - idx) :=
        pySlice_length _ _ _
      have hwin_ne : pySlice text idx (min (idx + m * 6) text.length) ≠ [] := by
        intro h0
        rw [h0] at hwinlen
        simp only [List.length_nil] at hwinlen
        omega
      have hchunk_ne : get_chunk_at e m
          (pySlice text idx (min (idx + m * 6) text.length)) ≠ [] :=
        get_chunk_at_ne_nil e m _ hm hwin_ne
      set chunk := get_chunk_at e m (pySlice text idx (min (idx + m * 6) text.length))
        with hchunk
      have hclen : 1 ≤ chunk.length := by
        cases hc : chunk with
        | nil => exact absurd hc hchunk_ne
        | cons a b => simp [hc]
      dsimp only
      by_cases hend : text.length ≤ idx + chunk.length
      · rw [if_pos hend]
        refine ⟨rfl, ?_⟩
        intro ch hch
        simp only [List.mem_singleton] at hch
        subst hch
        exact hchunk_ne
      · rw [if_neg hend]
        have hov : (Int.floor ((chunk.length : ℚ) * r)).toNat < chunk.length :=
          floor_mul_ratio_lt chunk.length r hclen hr1
        have hrec := ih (idx + chunk.length - (Int.floor ((chunk.length : ℚ) * r)).toNat)
          (by omega)
        refine ⟨hrec.1, ?_⟩
        intro ch hch
        simp only [List.mem_cons] at hch
        rcases hch with hch | hch
        · subst hch
          exact hchunk_ne
        · exact hrec.2 ch hch
    · unfold fixedChunkGo
      rw [if_neg hidx]
      simp

theorem semChunkGo_ok (e : Encoding) (m : ℕ)
    (resp : ℕ → Except Unit (Option ℤ × Option ℤ)) (text : List Char)
    (H : ∀ k idx, idx < text.length → ∃ cn : ℕ × ℕ,
      semStepData e m resp text k idx = some cn ∧ 1 ≤ cn.1 ∧
      (idx + cn.1 < text.length → 1 ≤ cn.2)) :
    ∀ (fuel idx k : ℕ), text.length - idx ≤ fuel →
      (semChunkGo e m resp text fuel idx k).2 = .done ∧
      ∀ ch ∈ (semChunkGo e m resp text fuel idx k).1, ch.text ≠ [] := by
  intro fuel
  induction fuel with
  | zero =>
    intro idx k h
    have : ¬ idx < text.length := by omega
    simp [semChunkGo, this]
  | succ fuel ih =>
    intro idx k h
    by_cases hidx : idx < text.length
    · obtain ⟨⟨cutRel, nsr⟩, hstep, h1, h2⟩ := H k idx hidx
      unfold semChunkGo
      rw [if_pos hidx, hstep]
      dsimp only
      have hchunk_ne : pySlice text idx (idx + cutRel) ≠ [] := by
        intro h0
        have := pySlice_length text idx (idx + cutRel)
        rw [h0] at this
        simp only [List.length_nil] at this
        omega
      by_cases hend : text.length ≤ idx + cutRel
      · rw [if_pos hend]
        refine ⟨rfl, ?_⟩
        intro ch hch
        simp only [List.mem_singleton] at hch
        subst hch
        exact hchunk_ne
      · rw [if_neg hend]
        have hns : 1 ≤ nsr := h2 (by omega)
        have hrec := ih (idx + nsr) (k + 1) (by omega)
        refine ⟨hrec.1, ?_⟩
        intro ch hch
        simp only [List.mem_cons] at hch
        rcases hch with hch | hch
        · subst hch
          exact hchunk_ne
        · exact hrec.2 ch hch
    · unfold semChunkGo
      rw [if_neg hidx]
      simp

/-- C5 counterexample: (i) the fixed-window chunker with `max_tokens = 0`
(the constructor validates only `overlap_ratio`) emits zero-length chunks on
the non-empty document `"ab"` and is still running after `len(text)`
iterations; (ii) the LLM-boundary chunker emits a zero-length chunk when a
(successfully parsed) response gives `cut_index = 0`; (iii) even with a
positive cut index, a response with `next_chunk_start_index = 0` makes the
loop re-chunk the same position forever (identical chunks, never finished). -/
theorem C5_counterexample :
    chunk_text_fixed charEncoding 0 0 "ab".data =
      ([⟨[], 0, 0⟩, ⟨[], 0, 0⟩], false) ∧
    chunk_text_sem charEncoding 100 (fun _ => .ok (some 0, some 0)) "ab".data =
      ([⟨[], 0, 0⟩, ⟨[], 0, 0⟩], .fuelOut) ∧
    chunk_text_sem charEncoding 100 (fun _ => .ok (some 2, some 0)) "abcd".data =
      ([⟨"ab".data, 0, 2⟩, ⟨"ab".data, 0, 2⟩, ⟨"ab".data, 0, 2⟩, ⟨"ab".data, 0, 2⟩],
        .fuelOut) := by
  refine ⟨?_, by decide, by decide⟩
  show fixedChunkGo charEncoding 0 0 "ab".data 2 0 = _
  norm_num [fixedChunkGo, pySlice, get_chunk_at]

/-- C5 (amended): both chunking strategies produce nothing on the empty
document; the fixed-window strategy terminates on every input and produces no
zero-length chunk **provided** `max_tokens ≥ 1` (with the constructor's
`0 ≤ overlap_ratio < 1`); the LLM-boundary strategy does so **provided**
moreover every reachable step's parsed response yields an effective cut index
≥ 1 and, when the step is not the last, an effective next-start ≥ 1.  Without
those provisos the loops emit empty chunks or fail to advance
(`C5_counterexample`). -/
theorem C5_chunkers :
    (∀ (e : Encoding) (m : ℕ) (r : ℚ), chunk_text_fixed e m r [] = ([], true)) ∧
    (∀ (e : Encoding) (m : ℕ) (resp : ℕ → Except Unit (Option ℤ × Option ℤ)),
      chunk_text_sem e m resp [] = ([], .done)) ∧
    (∀ (e : Encoding) (m : ℕ) (r : ℚ) (text : List Char),
      1 ≤ m → 0 ≤ r → r < 1 →
      (chunk_text_fixed e m r text).2 = true ∧
      ∀ ch ∈ (chunk_text_fixed e m r text).1, ch.text ≠ []) ∧
    (∀ (e : Encoding) (m : ℕ) (resp : ℕ → Except Unit (Option ℤ × Option ℤ))
        (text : List Char),
      (∀ k idx, idx < text.length → ∃ cn : ℕ × ℕ,
        semStepData e m resp text k idx = some cn ∧ 1 ≤ cn.1 ∧
        (idx + cn.1 < text.length → 1 ≤ cn.2)) →
      (chunk_text_sem e m resp text).2 = .done ∧
      ∀ ch ∈ (chunk_text_sem e m resp text).1, ch.text ≠ []) := by
  refine ⟨fun e m r => rfl, fun e m resp => rfl, ?_, ?_⟩
  · intro e m r text hm hr0 hr1
    exact fixedChunkGo_ok e m r text hm hr0 hr1 text.length 0 (by omega)
  · intro e m resp text H
    exact semChunkGo_ok e m resp text H text.length 0 0 (by omega)

/-- C5 witness: concrete terminating runs of both strategies with all
hypotheses discharged. -/
theorem C5_chunkers_witness :
    ((chunk_text_fixed charEncoding 1 0 "ab".data).2 = true ∧
      ∀ ch ∈ (chunk_text_fixed charEncoding 1 0 "ab".data).1, ch.text ≠ []) ∧
    ((chunk_text_sem charEncoding 100 (fun _ => .ok (some 2, some 1)) "ab".data).2 =
        .done ∧
      ∀ ch ∈ (chunk_text_sem charEncoding 100
          (fun _ => .ok (some 2, some 1)) "ab".data).1, ch.text ≠ []) := by
  constructor
  · exact C5_chunkers.2.2.1 charEncoding 1 0 "ab".data (by norm_num) (by norm_num)
      (by norm_num)
  · refine C5_chunkers.2.2.2 charEncoding 100 (fun _ => .ok (some 2, some 1))
      "ab".data ?_
    intro k idx hidx
    match idx with
    | 0 => exact ⟨(2, 1), rfl, by decide, by decide⟩
    | 1 => exact ⟨(1, 0), rfl, by decide, by decide⟩
    | n + 2 => exact absurd hidx (by simp)

/-! ## Storage (`src/core/storage.py`)

The sqlite file is modelled as two row lists in insertion (= rowid) order;
`TEXT` columns and the nullable foreign keys are `Option`s, as in the schema
of `_init_tables`. -/

/-- Stable insertion of `x` behind the existing elements `y` with `le y x`
(kernel-reducible, unlike `List.mergeSort`). -/
def insertSorted {α : Type} (le : α → α → Bool) (x : α) : List α → List α
  | [] => [x]
  | y :: ys => if le y x then y :: insertSorted le x ys else x :: y :: ys

/-- Stable sort by a Boolean comparison: models Python's stable `sorted` and
SQL `ORDER BY` over the insertion order. -/
def sortBy {α : Type} (le : α → α → Bool) (l : List α) : List α :=
  l.foldr (insertSorted le) []

theorem mem_insertSorted {α : Type} (le : α → α → Bool) (x a : α) :
    ∀ l : List α, a ∈ insertSorted le x l ↔ a = x ∨ a ∈ l := by
  intro l
  induction l with
  | nil => simp [insertSorted]
  | cons y ys ih =>
    simp only [insertSorted]
    split
    · simp only [List.mem_cons, ih]
      try tauto
    · simp only [List.mem_cons]
      try tauto

theorem mem_sortBy {α : Type} (le : α → α → Bool) (a : α) :
    ∀ l : List α, a ∈ sortBy le l ↔ a ∈ l := by
  intro l
  induction l with
  | nil => simp [sortBy]
  | cons y ys ih =>
    simp only [sortBy, List.foldr_cons] at ih ⊢
    rw [mem_insertSorted, ih, List.mem_cons]

/-- A row of the `chunks` table. -/
structure ChunkRow where
  id : ℕ
  text : Option String
  start_index : ℤ
  end_index : ℤ
  file_source : Option String
deriving DecidableEq

/-- A row of the `summaries` table. -/
structure SummaryRow where
  id : ℕ
  summary_text : Option String
  level : ℕ
  parent_id : Option ℕ
  sequence_index : ℕ
  chunk_id : Option ℕ
deriving DecidableEq

/-- The persistent store. -/
structure Store where
  chunks : List ChunkRow
  summaries : List SummaryRow
deriving DecidableEq

/-- The next AUTOINCREMENT id for the summaries table. -/
def nextSummaryId (s : Store) : ℕ :=
  (s.summaries.foldl (fun acc r => max acc r.id) 0) + 1

/-- The next AUTOINCREMENT id for the chunks table. -/
def nextChunkId (s : Store) : ℕ :=
  (s.chunks.foldl (fun acc r => max acc r.id) 0) + 1

/-- `StorageEngine.add_chunk`. -/
def add_chunk (s : Store) (text : String) (start finish : ℤ) (source : String) :
    Store × ℕ :=
  let nid := nextChunkId s
  ({ s with chunks := s.chunks ++ [⟨nid, some text, start, finish, some source⟩] }, nid)

/-- `StorageEngine.add_summary`. -/
def add_summary (s : Store) (text : String) (level : ℕ) (parent_id : Option ℕ)
    (sequence_index : ℕ) : Store × ℕ :=
  let nid := nextSummaryId s
  ({ s with summaries :=
      s.summaries ++ [⟨nid, some text, level, parent_id, sequence_index, none⟩] }, nid)

/-- `StorageEngine.link_summary_to_chunk`: UPDATE of the `chunk_id` column. -/
def link_summary_to_chunk (s : Store) (summary_id chunk_id : ℕ) : Store :=
  { s with summaries := s.summaries.map (fun r =>
      if r.id = summary_id then { r with chunk_id := some chunk_id } else r) }

/-- `StorageEngine.update_summary_parent`: an unconditional
`UPDATE summaries SET parent_id = ? WHERE id = ?`. -/
def update_summary_parent (s : Store) (summary_id parent_id : ℕ) : Store :=
  { s with summaries := s.summaries.map (fun r =>
      if r.id = summary_id then { r with parent_id := some parent_id } else r) }

/-- `StorageEngine.update_summary_text`. -/
def update_summary_text (s : Store) (summary_id : ℕ) (new_text : String) : Store :=
  { s with summaries := s.summaries.map (fun r =>
      if r.id = summary_id then { r with summary_text := some new_text } else r) }

/-- What `get_node_metadata` returns: `{'id', 'level', 'text'}`. -/
structure NodeMeta where
  id : ℕ
  level : ℕ
  text : Option String
deriving DecidableEq

/-- `StorageEngine.get_node_metadata`. -/
def get_node_metadata (s : Store) (summary_id : ℕ) : Option NodeMeta :=
  (s.summaries.find? (fun r => r.id == summary_id)).map
    (fun r => ⟨r.id, r.level, r.summary_text⟩)

/-- `StorageEngine.get_child_summaries`: children ordered by sequence index. -/
def get_child_summaries (s : Store) (parent_id : ℕ) : List (ℕ × Option String) :=
  ((s.summaries.filter (fun r => r.parent_id == some parent_id))
    |> sortBy (fun a b => decide (a.sequence_index ≤ b.sequence_index))).map
    (fun r => (r.id, r.summary_text))

/-- `MAX(level)` as `get_root_summaries` computes it: `-1` for an empty table. -/
def max_level_int (s : Store) : ℤ :=
  s.summaries.foldl (fun acc r => max acc (r.level : ℤ)) (-1)

/-- `StorageEngine.get_root_summaries`. -/
def get_root_summaries (s : Store) : List (ℕ × Option String) :=
  if max_level_int s < 0 then []
  else
    ((s.summaries.filter (fun r => (r.level : ℤ) == max_level_int s))
      |> sortBy (fun a b => decide (a.sequence_index ≤ b.sequence_index))).map
      (fun r => (r.id, r.summary_text))

/-- `StorageEngine.get_linked_chunk_id`: `None` both for a missing row and a
NULL column. -/
def get_linked_chunk_id (s : Store) (summary_id : ℕ) : Option ℕ :=
  (s.summaries.find? (fun r => r.id == summary_id)).bind (fun r => r.chunk_id)

/-- `StorageEngine.get_chunk_text`. -/
def get_chunk_text (s : Store) (chunk_id : ℕ) : Option String :=
  (s.chunks.find? (fun r => r.id == chunk_id)).bind (fun r => r.text)

/-- `StorageEngine.get_summary`. -/
def get_summary (s : Store) (summary_id : ℕ) : Option String :=
  (s.summaries.find? (fun r => r.id == summary_id)).bind (fun r => r.summary_text)

/-- `StorageEngine.get_summaries` (batch lookup, input order preserved). -/
def get_summaries (s : Store) (ids : List ℕ) : List (Option String) :=
  ids.map (fun i => get_summary s i)

/-- What `get_adjacent_nodes` returns. -/
structure AdjacentNodes where
  prev : Option ℕ
  next : Option ℕ
  parent : Option ℕ
deriving DecidableEq

/-- `StorageEngine.get_adjacent_nodes`: previous/next sibling share the parent
(SQL `parent_id IS NULL` vs `= ?`, both captured by `Option` equality) and the
level; `ORDER BY sequence_index DESC/ASC LIMIT 1`. -/
def get_adjacent_nodes (s : Store) (summary_id : ℕ) : AdjacentNodes :=
  match s.summaries.find? (fun r => r.id == summary_id) with
  | none => ⟨none, none, none⟩
  | some row =>
    let prevRow := ((s.summaries.filter (fun r =>
        r.parent_id == row.parent_id && r.level == row.level &&
          decide (r.sequence_index < row.sequence_index)))
      |> sortBy (fun a b => decide (b.sequence_index ≤ a.sequence_index))).head?
    let nextRow := ((s.summaries.filter (fun r =>
        r.parent_id == row.parent_id && r.level == row.level &&
          decide (row.sequence_index < r.sequence_index)))
      |> sortBy (fun a b => decide (a.sequence_index ≤ b.sequence_index))).head?
    ⟨prevRow.map (fun r => r.id), nextRow.map (fun r => r.id), row.parent_id⟩

/-- `StorageEngine.search_summaries`: `summary_text LIKE '%query%' LIMIT n`
(a NULL text never matches `LIKE`). -/
def search_summaries (s : Store) (query : String) (limit : ℕ) :
    List (ℕ × ℕ × String) :=
  (s.summaries.filterMap (fun r =>
    r.summary_text.bind (fun t =>
      if hasSub t.data query.data then some (r.id, r.level, t) else none))).take limit

/-- The three sentinel checks of `get_broken_summaries`, in source order. -/
def providerMarker (t : String) : Bool :=
  hasSub t.data "Provider returned error".data

def thinkMarker (t : String) : Bool :=
  hasSub t.data "<think>".data || hasSub t.data "</think>".data

def markdownMarker (t : String) : Bool :=
  "```markdown".data.isPrefixOf (stripChars t.data)

/-- What `get_broken_summaries` returns. -/
structure BrokenSummaries where
  provider_error : List (ℕ × String)
  think_blocks : List (ℕ × String)
  markdown_prefix : List (ℕ × String)
deriving DecidableEq

/-- `StorageEngine.get_broken_summaries`: each row with truthy text goes to
the first matching category of the `if`/`elif`/`elif` chain (provider error,
then think blocks, then a stripped text starting with three backticks and
`markdown`); rows with `None` or empty text are skipped. -/
def get_broken_summaries (s : Store) : BrokenSummaries where
  provider_error := s.summaries.filterMap (fun r =>
    r.summary_text.bind (fun t =>
      if t = "" then none
      else if providerMarker t then some (r.id, t) else none))
  think_blocks := s.summaries.filterMap (fun r =>
    r.summary_text.bind (fun t =>
      if t = "" then none
      else if providerMarker t then none
      else if thinkMarker t then some (r.id, t) else none))
  markdown_prefix := s.summaries.filterMap (fun r =>
    r.summary_text.bind (fun t =>
      if t = "" then none
      else if providerMarker t then none
      else if thinkMarker t then none
      else if markdownMarker t then some (r.id, t) else none))

/-- C3 counterexample: node 1 has the non-null parent 5; the claim says
`update_summary_parent` then leaves the pointer unchanged, but the stored
parent becomes 7. -/
theorem C3_counterexample :
    (update_summary_parent ⟨[], [⟨1, some "t", 1, some 5, 0, none⟩]⟩ 1 7).summaries =
      [⟨1, some "t", 1, some 7, 0, none⟩] := by
  decide

/-- C3 (amended): `update_summary_parent(node_id, parent_id)` is an
unconditional UPDATE: the stored parent of every row with the given id is
overwritten with the new value whether or not it was null, other rows are
untouched, and no row is added or removed.  The set-once-from-null discipline
of the spec is a property of how repair calls it, not of the operation. -/
theorem C3_update_parent (s : Store) (nid pid : ℕ) (r : SummaryRow)
    (hr : r ∈ s.summaries) :
    (r.id = nid →
      { r with parent_id := some pid } ∈ (update_summary_parent s nid pid).summaries) ∧
    (r.id ≠ nid → r ∈ (update_summary_parent s nid pid).summaries) ∧
    (update_summary_parent s nid pid).summaries.length = s.summaries.length := by
  refine ⟨?_, ?_, ?_⟩
  · intro hid
    unfold update_summary_parent
    simp only [List.mem_map]
    exact ⟨r, hr, by rw [if_pos hid]⟩
  · intro hid
    unfold update_summary_parent
    simp only [List.mem_map]
    exact ⟨r, hr, by rw [if_neg hid]⟩
  · unfold update_summary_parent
    simp

/-- C3 witness: overwriting a non-null parent at a concrete store. -/
theorem C3_update_parent_witness :
    ({ (⟨1, some "t", 1, some 5, 0, none⟩ : SummaryRow) with parent_id := some 7 } ∈
      (update_summary_parent ⟨[], [⟨1, some "t", 1, some 5, 0, none⟩]⟩ 1 7).summaries) ∧
    ((⟨1, some "t", 1, some 5, 0, none⟩ : SummaryRow) ∈
        (update_summary_parent ⟨[], [⟨1, some "t", 1, some 5, 0, none⟩]⟩ 2 7).summaries) :=
  ⟨(C3_update_parent ⟨[], [⟨1, some "t", 1, some 5, 0, none⟩]⟩ 1 7 _
      (by decide)).1 rfl,
   (C3_update_parent ⟨[], [⟨1, some "t", 1, some 5, 0, none⟩]⟩ 2 7 _
      (by decide)).2.1 (by decide)⟩

theorem mem_provider_error (s : Store) (p : ℕ × String) :
    p ∈ (get_broken_summaries s).provider_error →
      p.2 ≠ "" ∧ providerMarker p.2 = true := by
  intro hp
  unfold get_broken_summaries at hp
  simp only [List.mem_filterMap, Option.bind_eq_some] at hp
  obtain ⟨r, _, t, _, ht⟩ := hp
  by_cases h1 : t = ""
  · rw [if_pos h1] at ht; exact absurd ht (by simp)
  · rw [if_neg h1] at ht
    by_cases h2 : providerMarker t
    · rw [if_pos h2] at ht
      have hte : t = p.2 := congrArg Prod.snd (Option.some.inj ht)
      rw [← hte]
      exact ⟨h1, h2⟩
    · rw [if_neg h2] at ht; exact absurd ht (by simp)

theorem mem_think_blocks (s : Store) (p : ℕ × String) :
    p ∈ (get_broken_summaries s).think_blocks →
      p.2 ≠ "" ∧ providerMarker p.2 = false ∧ thinkMarker p.2 = true := by
  intro hp
  unfold get_broken_summaries at hp
  simp only [List.mem_filterMap, Option.bind_eq_some] at hp
  obtain ⟨r, _, t, _, ht⟩ := hp
  by_cases h1 : t = ""
  · rw [if_pos h1] at ht; exact absurd ht (by simp)
  · rw [if_neg h1] at ht
    by_cases h2 : providerMarker t
    · rw [if_pos h2] at ht; exact absurd ht (by simp)
    · rw [if_neg h2] at ht
      by_cases h3 : thinkMarker t
      · rw [if_pos h3] at ht
        have hte : t = p.2 := congrArg Prod.snd (Option.some.inj ht)
        rw [← hte]
        exact ⟨h1, by simpa using h2, h3⟩
      · rw [if_neg h3] at ht; exact absurd ht (by simp)

theorem mem_markdown (s : Store) (p : ℕ × String) :
    p ∈ BrokenSummaries.markdown_prefix (get_broken_summaries s) →
      p.2 ≠ "" ∧ providerMarker p.2 = false ∧ thinkMarker p.2 = false ∧
        markdownMarker p.2 = true := by
  intro hp
  unfold get_broken_summaries at hp
  simp only [List.mem_filterMap, Option.bind_eq_some] at hp
  obtain ⟨r, _, t, _, ht⟩ := hp
  by_cases h1 : t = ""
  · rw [if_pos h1] at ht; exact absurd ht (by simp)
  · rw [if_neg h1] at ht
    by_cases h2 : providerMarker t
    · rw [if_pos h2] at ht; exact absurd ht (by simp)
    · rw [if_neg h2] at ht
      by_cases h3 : thinkMarker t
      · rw [if_pos h3] at ht; exact absurd ht (by simp)
      · rw [if_neg h3] at ht
        by_cases h4 : markdownMarker t
        · rw [if_pos h4] at ht
          have hte : t = p.2 := congrArg Prod.snd (Option.some.inj ht)
          rw [← hte]
          exact ⟨h1, by simpa using h2, by simpa using h3, h4⟩
        · rw [if_neg h4] at ht; exact absurd ht (by simp)

/-- C10: the three categories of the broken-summary scan are pairwise
disjoint: a pair reported under `provider_error` is reported under neither
`think_blocks` nor `markdown_prefix`, and likewise for the other two —
precedence is provider error over think blocks over markdown prefix, so a
text containing the provider-error marker is classified only there even when
it also contains the other artifacts. -/
theorem C10_broken_disjoint (s : Store) (p : ℕ × String) :
    (p ∈ (get_broken_summaries s).provider_error →
      p ∉ (get_broken_summaries s).think_blocks ∧
      p ∉ BrokenSummaries.markdown_prefix (get_broken_summaries s)) ∧
    (p ∈ (get_broken_summaries s).think_blocks →
      p ∉ (get_broken_summaries s).provider_error ∧
      p ∉ BrokenSummaries.markdown_prefix (get_broken_summaries s)) ∧
    (p ∈ BrokenSummaries.markdown_prefix (get_broken_summaries s) →
      p ∉ (get_broken_summaries s).provider_error ∧
      p ∉ (get_broken_summaries s).think_blocks) := by
  refine ⟨fun hp => ⟨fun hq => ?_, fun hq => ?_⟩,
    fun hp => ⟨fun hq => ?_, fun hq => ?_⟩,
    fun hp => ⟨fun hq => ?_, fun hq => ?_⟩⟩
  · exact absurd (mem_provider_error s p hp).2 (by simp [(mem_think_blocks s p hq).2.1])
  · exact absurd (mem_provider_error s p hp).2 (by simp [(mem_markdown s p hq).2.1])
  · exact absurd (mem_provider_error s p hq).2 (by simp [(mem_think_blocks s p hp).2.1])
  · exact absurd (mem_think_blocks s p hp).2.2 (by simp [(mem_markdown s p hq).2.2.1])
  · exact absurd (mem_provider_error s p hq).2 (by simp [(mem_markdown s p hp).2.1])
  · exact absurd (mem_think_blocks s p hq).2.2 (by simp [(mem_markdown s p hp).2.2.1])

/-- C10 witness: a text holding both the provider-error marker and a think
block is reported only under `provider_error`. -/
theorem C10_broken_disjoint_witness :
    (1, "Provider returned error <think>x</think>") ∉
      (get_broken_summaries
        ⟨[], [⟨1, some "Provider returned error <think>x</think>", 0, none, 0, none⟩]⟩).think_blocks ∧
    (1, "Provider returned error <think>x</think>") ∉
      (get_broken_summaries
        ⟨[], [⟨1, some "Provider returned error <think>x</think>", 0, none, 0, none⟩]⟩
        |> BrokenSummaries.markdown_prefix) :=
  (C10_broken_disjoint
    ⟨[], [⟨1, some "Provider returned error <think>x</think>", 0, none, 0, none⟩]⟩
    (1, "Provider returned error <think>x</think>")).1 (by decide)

/-! ## Validator (`src/core/validator.py`)

`DatabaseValidator.validate` composes `get_broken_summaries` with three
storage queries — `get_chunks_without_summaries`, `get_orphan_summaries`,
`get_max_summary_level` — that are absent from `src/` (only this caller is);
those three are modelled from the spec's words. -/

/-- Modelled from the spec: `max_level() → int?` — the storage method
`get_max_summary_level` is absent from `src/`; it is modelled as the maximum
summary level, `-1` for an empty table (the convention of the sibling query
in `get_root_summaries`, and what `repair` expects when comparing it with
`max_depth`). -/
def get_max_summary_level (s : Store) : ℤ :=
  max_level_int s

/-- Modelled from the spec: `chunks_without_summary() → [(chunk_id, text)]`,
"chunks that no level-0 node references" — the storage method
`get_chunks_without_summaries` is absent from `src/`. -/
def get_chunks_without_summaries (s : Store) : List (ℕ × Option String) :=
  (s.chunks.filter (fun c =>
    !(s.summaries.any (fun r => r.level == 0 && r.chunk_id == some c.id)))).map
    (fun c => (c.id, c.text))

/-- Modelled from the spec: `orphan_summaries() → [id]`, "nodes at the current
max level with null parent, ordered for deterministic regrouping" — the
storage method `get_orphan_summaries` is absent from `src/`; ordering is by
sequence index. -/
def get_orphan_summaries (s : Store) : List ℕ :=
  ((s.summaries.filter (fun r =>
    (r.level : ℤ) == max_level_int s && r.parent_id == none))
    |> sortBy (fun a b => decide (a.sequence_index ≤ b.sequence_index))).map (fun r => r.id)

/-- Modelled from the spec: a "fresh `sequence_index` that continues the
existing level-0 ordering" — the storage method `get_next_sequence_index` is
absent from `src/`; it is one past the largest sequence index at the level,
`0` when the level is empty. -/
def get_next_sequence_index (s : Store) (level : ℕ) : ℕ :=
  (s.summaries.filter (fun r => r.level == level)).foldl
    (fun acc r => max acc (r.sequence_index + 1)) 0

/-- The `incomplete_summaries` entry of `validate`'s result. -/
structure IncompleteSummaries where
  missing_level_0 : List (ℕ × Option String)
  orphan_summary_ids : List ℕ
  current_max_level : ℤ
deriving DecidableEq

/-- The dict returned by `DatabaseValidator.validate`. -/
structure ValidationReport where
  provider_error : List (ℕ × String)
  think_blocks : List (ℕ × String)
  markdown_prefix : List (ℕ × String)
  incomplete_summaries : IncompleteSummaries
deriving DecidableEq

/-- `DatabaseValidator.validate`. -/
def validate (s : Store) : ValidationReport :=
  let issues := get_broken_summaries s
  { provider_error := issues.provider_error
    think_blocks := issues.think_blocks
    markdown_prefix := issues.markdown_prefix
    incomplete_summaries :=
      { missing_level_0 := get_chunks_without_summaries s
        orphan_summary_ids := get_orphan_summaries s
        current_max_level := get_max_summary_level s } }

theorem le_foldl_max (l : List SummaryRow) (init : ℤ) :
    init ≤ l.foldl (fun acc r => max acc (r.level : ℤ)) init := by
  induction l generalizing init with
  | nil => exact le_refl _
  | cons c t ih => exact le_trans (le_max_left _ _) (ih (max init (c.level : ℤ)))

theorem mem_le_foldl_max (l : List SummaryRow) (init : ℤ) (r : SummaryRow)
    (hr : r ∈ l) :
    (r.level : ℤ) ≤ l.foldl (fun acc r => max acc (r.level : ℤ)) init := by
  induction l generalizing init with
  | nil => cases hr
  | cons c t ih =>
    rcases List.mem_cons.mp hr with h | h
    · subst h
      exact le_trans (le_max_right _ _) (le_foldl_max t _)
    · exact ih _ h

theorem foldl_max_eq_init_or_mem (l : List SummaryRow) (init : ℤ) :
    l.foldl (fun acc r => max acc (r.level : ℤ)) init = init ∨
    ∃ r ∈ l, l.foldl (fun acc r => max acc (r.level : ℤ)) init = (r.level : ℤ) := by
  induction l generalizing init with
  | nil => exact Or.inl rfl
  | cons c t ih =>
    rcases ih (max init (c.level : ℤ)) with h | ⟨r, hr, h⟩
    · rcases max_choice init (c.level : ℤ) with hm | hm
      · exact Or.inl (by rw [List.foldl_cons, h, hm])
      · exact Or.inr ⟨c, List.mem_cons_self _ _, by rw [List.foldl_cons, h, hm]⟩
    · exact Or.inr ⟨r, List.mem_cons_of_mem _ hr, by rw [List.foldl_cons, h]⟩

/-- C1: for every store, `validate()` returns the classification computed
through the three storage queries: `missing_level_0` holds exactly the chunks
with no linked level-0 node, `orphan_summary_ids` exactly the nodes at the
current max level with null parent, and `current_max_level` is the max level
(`-1` on an empty summaries table, attained by some row otherwise); being a
total function, `validate` never fails. -/
theorem C1_validate (s : Store) :
    (∀ cid t, (cid, t) ∈ (validate s).incomplete_summaries.missing_level_0 ↔
      ∃ c ∈ s.chunks, c.id = cid ∧ c.text = t ∧
        ∀ r ∈ s.summaries, ¬(r.level = 0 ∧ r.chunk_id = some cid)) ∧
    (∀ i, i ∈ (validate s).incomplete_summaries.orphan_summary_ids ↔
      ∃ r ∈ s.summaries, r.id = i ∧ (r.level : ℤ) = get_max_summary_level s ∧
        r.parent_id = none) ∧
    ((validate s).incomplete_summaries.current_max_level = get_max_summary_level s ∧
      (validate s).provider_error = (get_broken_summaries s).provider_error ∧
      (validate s).think_blocks = (get_broken_summaries s).think_blocks ∧
      ValidationReport.markdown_prefix (validate s) = BrokenSummaries.markdown_prefix (get_broken_summaries s)) ∧
    (∀ r ∈ s.summaries,
      (r.level : ℤ) ≤ (validate s).incomplete_summaries.current_max_level) ∧
    (s.summaries = [] → (validate s).incomplete_summaries.current_max_level = -1) ∧
    (s.summaries ≠ [] → ∃ r ∈ s.summaries,
      (validate s).incomplete_summaries.current_max_level = (r.level : ℤ)) := by
  refine ⟨?_, ?_, ⟨rfl, rfl, rfl, rfl⟩, ?_, ?_, ?_⟩
  · intro cid t
    show (cid, t) ∈ get_chunks_without_summaries s ↔ _
    unfold get_chunks_without_summaries
    simp only [List.mem_map, List.mem_filter]
    constructor
    · rintro ⟨c, ⟨hc, hpred⟩, heq⟩
      obtain ⟨h1, h2⟩ : c.id = cid ∧ c.text = t := by
        exact ⟨congrArg Prod.fst heq, congrArg Prod.snd heq⟩
      refine ⟨c, hc, h1, h2, ?_⟩
      intro r hr ⟨hl, hcid⟩
      simp only [Bool.not_eq_true', List.any_eq_false] at hpred
      rw [← h1] at hcid
      exact hpred r hr (by simp [hl, hcid])
    · rintro ⟨c, hc, h1, h2, hall⟩
      refine ⟨c, ⟨hc, ?_⟩, by rw [h1, h2]⟩
      simp only [Bool.not_eq_true', List.any_eq_false]
      intro r hr hcontra
      simp only [Bool.and_eq_true, beq_iff_eq] at hcontra
      have hthis := hall r hr
      rw [← h1] at hthis
      exact hthis ⟨hcontra.1, hcontra.2⟩
  · intro i
    show i ∈ get_orphan_summaries s ↔ _
    unfold get_orphan_summaries
    simp only [List.mem_map, mem_sortBy, List.mem_filter,
      Bool.and_eq_true, beq_iff_eq]
    constructor
    · rintro ⟨r, ⟨hr, h1, h2⟩, h3⟩
      exact ⟨r, hr, h3, h1, by simpa using h2⟩
    · rintro ⟨r, hr, h3, h1, h2⟩
      exact ⟨r, ⟨hr, h1, by simpa using h2⟩, h3⟩
  · intro r hr
    exact mem_le_foldl_max s.summaries (-1) r hr
  · intro h
    show max_level_int s = -1
    unfold max_level_int
    rw [h]
    rfl
  · intro h
    show ∃ r ∈ s.summaries, max_level_int s = (r.level : ℤ)
    rcases foldl_max_eq_init_or_mem s.summaries (-1) with hinit | hmem
    · obtain ⟨r, hr⟩ := List.exists_mem_of_ne_nil s.summaries h
      have hle := mem_le_foldl_max s.summaries (-1) r hr
      rw [hinit] at hle
      omega
    · exact hmem

/-- C1 witness: the characterization applied at a populated store and the
empty-store case at the empty store. -/
theorem C1_validate_witness :
    (∃ r ∈ (Store.mk [⟨1, some "c1", 0, 2, some "f"⟩]
        [⟨1, some "leaf", 0, some 2, 0, some 1⟩,
         ⟨2, some "root", 1, none, 0, none⟩]).summaries,
      (validate (Store.mk [⟨1, some "c1", 0, 2, some "f"⟩]
        [⟨1, some "leaf", 0, some 2, 0, some 1⟩,
         ⟨2, some "root", 1, none, 0, none⟩])).incomplete_summaries.current_max_level =
        (r.level : ℤ)) ∧
    (validate (Store.mk [] [])).incomplete_summaries.current_max_level = -1 :=
  ⟨(C1_validate (Store.mk [⟨1, some "c1", 0, 2, some "f"⟩]
      [⟨1, some "leaf", 0, some 2, 0, some 1⟩,
       ⟨2, some "root", 1, none, 0, none⟩])).2.2.2.2.2 (by decide),
   (C1_validate (Store.mk [] [])).2.2.2.2.1 rfl⟩

/-! ## Ingestion (`src/core/indexer.py`) and the coverage invariant -/

/-- Python `range(0, len(l), n)` batching: consecutive groups of `n` (the last
possibly smaller), written with fuel for kernel evaluation. -/
def groupsOfF {α : Type} : ℕ → ℕ → List α → List (List α)
  | 0, _, _ => []
  | fuel + 1, n, l => if l.isEmpty then [] else l.take n :: groupsOfF fuel n (l.drop n)

def groupsOf {α : Type} (n : ℕ) (l : List α) : List (List α) :=
  groupsOfF l.length n l

/-- `Indexer.ingest_file`'s chunk-write and level-0 summarization phases
(`src/core/indexer.py` lines 111–176), evaluated against the sqlite schema of
`StorageEngine`.  The indexer's `storage` global and its `add_chunks` /
`add_summaries` batch writers are not under `src/` (the module imports a
`storage` object that `src/core/storage.py` does not define); batch insertion
is modelled from the spec (§4.2, §6.2): rows are appended with sequential ids
(`start_id = len(chunk_table) + 1`, as the source computes), and — decisive
here — the summaries schema has no `chunk_ids` column, so the payload's
comma-joined `chunk_ids` string populates nothing and `chunk_id` stays NULL;
payload keys the source omits (`parent_id`, `sequence_index`) default to
NULL/0.  One level-0 summary is built per group of `group_size` chunks, its
text from the summarizer oracle on the `"\n\n"`-joined group texts. -/
def ingest_level0 (summarize : String → String) (group_size : ℕ) (s : Store)
    (chunksData : List (String × ℤ × ℤ)) : Store :=
  let startId := s.chunks.length + 1
  let newChunks := chunksData.enum.map (fun p =>
    ChunkRow.mk (startId + p.1) (some p.2.1) p.2.2.1 p.2.2.2 none)
  let s1 : Store := ⟨s.chunks ++ newChunks, s.summaries⟩
  let groups := groupsOf group_size newChunks
  let payloads := groups.map (fun g =>
    summarize (String.intercalate "\n\n" (g.map (fun c => c.text.getD ""))))
  let startSumId := nextSummaryId s1
  let newSums := payloads.enum.map (fun p =>
    SummaryRow.mk (startSumId + p.1) (some p.2) 0 none 0 none)
  ⟨s1.chunks, s1.summaries ++ newSums⟩

/-- How many level-0 summaries point at chunk `cid`. -/
def level0LeafCount (s : Store) (cid : ℕ) : ℕ :=
  (s.summaries.filter (fun r => r.level == 0 && r.chunk_id == some cid)).length

/-- The spec's Coverage invariant: every stored chunk has exactly one level-0
node whose `chunk_id` points at it. -/
def Coverage (s : Store) : Prop :=
  ∀ c ∈ s.chunks, level0LeafCount s c.id = 1

instance (s : Store) : Decidable (Coverage s) := by
  unfold Coverage
  infer_instance

/-- C2: ingesting a two-chunk file with the default `group_size = 2` yields
one level-0 summary for the pair with `chunk_id` NULL, so no level-0 node
points at either chunk and the coverage invariant fails — the code groups
`group_size` chunks per leaf and never links `chunk_id` (the repo's own
`tests/test_indexer.py` instead expects one `link_summary_to_chunk` call per
chunk). -/
theorem C2_coverage_violated :
    ingest_level0 (fun _ => "S") 2 ⟨[], []⟩ [("chunk one", 0, 9), ("chunk two", 9, 18)] =
      ⟨[⟨1, some "chunk one", 0, 9, none⟩, ⟨2, some "chunk two", 9, 18, none⟩],
       [⟨1, some "S", 0, none, 0, none⟩]⟩ ∧
    level0LeafCount
      ⟨[⟨1, some "chunk one", 0, 9, none⟩, ⟨2, some "chunk two", 9, 18, none⟩],
       [⟨1, some "S", 0, none, 0, none⟩]⟩ 1 = 0 ∧
    ¬ Coverage
      ⟨[⟨1, some "chunk one", 0, 9, none⟩, ⟨2, some "chunk two", 9, 18, none⟩],
       [⟨1, some "S", 0, none, 0, none⟩]⟩ := by
  decide

/-! ## Navigator tool surface (`src/tools/rlm_tools.py`)

Each operation is a function to `Except String String`: `.ok` is a returned
content string, `.error` a Python exception escaping to the agent.  The
sub-agent spawn (`_spawn_sub_agent`, an external LLM call whose retry loop
catches every exception and always returns a string) is an oracle
`String → String → String` over (chunk text, query). -/

/-- Python `f"{x}"` on a nullable value: `None` renders as `"None"`. -/
def pyStr : Option String → String
  | none => "None"
  | some t => t

/-- `RLMTools.inspect_document_hierarchy`. -/
def inspect_document_hierarchy (s : Store) : String :=
  let nodes := get_root_summaries s
  if nodes.isEmpty then "No document structure found. The index might be empty."
  else
    "Document Root Nodes:\n" ++ String.join (nodes.map (fun n =>
      let nid := n.1
      let ntext := pyStr n.2
      s!"<id>{nid}</id>\n<text>\n{ntext}\n</text>\n\n"))

/-- `RLMTools.examine_summary_node`.  The one raising path: an internal node
with children whose own `summary_text` is NULL reaches `summary_text[:75]`,
and subscripting `None` raises `TypeError`. -/
def examine_summary_node (s : Store) (summary_id : ℕ) (query : String)
    (subAgent : String → String → String) : Except String String :=
  match get_node_metadata s summary_id with
  | none => .ok s!"Error: Node ID {summary_id} not found."
  | some node =>
    let level := node.level
    if 0 < level then
      let children := get_child_summaries s summary_id
      if children.isEmpty then
        .ok s!"Node {summary_id} (Level {level}) is empty (no children)."
      else
        match node.text with
        | none => .error "TypeError: 'NoneType' object is not subscriptable"
        | some txt =>
          let snippet := String.mk (txt.data.take 75)
          let childCount := children.length
          .ok (s!"Node {summary_id}\n<level>{level}</level>\n<summary>{snippet}...</summary>\n"
            ++ s!"Contains {childCount} children.\n<children>\n"
            ++ String.join (children.map (fun c =>
                let cid := c.1
                let ctext := pyStr c.2
                s!"<child_id>{cid}</child_id>\n<child_summary>\n{ctext}</child_summary>\n"))
            ++ "</children>\n")
    else
      if query = "" then
        .ok (s!"Node {summary_id} is a Leaf Node containing raw text. "
          ++ "To prevent context overflow, you must provide a specific 'query' argument "
          ++ s!"to analyze this text. (e.g., examine_summary_node({summary_id}, "
          ++ "query='What is the specific date mentioned?'))")
      else
        match get_linked_chunk_id s summary_id with
        | none => .ok s!"Error: Leaf Node {summary_id} has no linked raw text chunk."
        | some chunk_id =>
          if chunk_id = 0 then
            .ok s!"Error: Leaf Node {summary_id} has no linked raw text chunk."
          else
            match get_chunk_text s chunk_id with
            | none => .ok s!"Error: Could not retrieve text for chunk {chunk_id}."
            | some raw_text =>
              if raw_text = "" then
                .ok s!"Error: Could not retrieve text for chunk {chunk_id}."
              else
                .ok (subAgent raw_text query)

/-- `RLMTools.read_neighbor_node`. -/
def read_neighbor_node (s : Store) (current_node_id : ℕ) (direction : String) :
    Except String String :=
  if direction ≠ "next" ∧ direction ≠ "prev" ∧ direction ≠ "parent" then
    .ok "Error: direction must be one of \x7b'next', 'prev', 'parent'\x7d."
  else
    let neighbors := get_adjacent_nodes s current_node_id
    let target :=
      if direction = "next" then neighbors.next
      else if direction = "prev" then neighbors.prev
      else neighbors.parent
    match target with
    | none =>
      .ok s!"No {direction} node exists for Node {current_node_id} (It might be the start/end of the section)."
    | some target_id =>
      let text := get_summary s target_id
      match get_node_metadata s target_id with
      | none => .ok s!"Error: Could not retrieve metadata for Node {target_id}."
      | some meta =>
        let lvl := meta.level
        let content := pyStr text
        .ok s!"Navigated {direction} to Node {target_id} (Level {lvl}).\n<content>\n{content}\n</content>"

/-- `RLMTools.search_summaries` (the tool wrapping the storage query). -/
def search_summaries_tool (s : Store) (query : String) : Except String String :=
  if query = "" ∨ stripChars query.data = [] then
    .ok "Error: Query cannot be empty."
  else
    let q : String := ⟨stripChars query.data⟩
    let results := search_summaries s q 10
    if results.isEmpty then .ok s!"No matches found for '{query}'."
    else
      .ok (s!"Search Results for '{query}':\n"
        ++ String.join (results.map (fun m =>
            let mid := m.1
            let mlevel := m.2.1
            let snippet := String.mk (m.2.2.data.take 150)
            s!"- <id>{mid}</id>\n<level>{mlevel}</level>\n<summary_snippet>{snippet}...</summary_snippet>\n")))

theorem get_node_metadata_text (s : Store) (sid : ℕ) (node : NodeMeta)
    (h : get_node_metadata s sid = some node) :
    ∃ r ∈ s.summaries, node.text = r.summary_text := by
  unfold get_node_metadata at h
  cases hf : s.summaries.find? (fun r => r.id == sid) with
  | none => rw [hf] at h; exact absurd h (by simp)
  | some r =>
    rw [hf] at h
    refine ⟨r, List.mem_of_find?_eq_some hf, ?_⟩
    have := Option.some.inj h
    rw [← this]

/-- C9 counterexample: on a store whose internal node 1 has NULL text and a
child, `examine_summary_node` raises `TypeError` (subscripting `None`) instead
of returning a content string — so the navigator operations do not return a
string for *every* input. -/
theorem C9_counterexample :
    examine_summary_node
      ⟨[], [⟨1, none, 1, none, 0, none⟩, ⟨2, some "child", 0, some 1, 0, none⟩]⟩
      1 "" (fun _ _ => "") =
    .error "TypeError: 'NoneType' object is not subscriptable" := by
  rfl

/-- C9 (amended): on stores where every stored summary text is non-NULL, all
navigator operations return content strings and never raise, whatever the
arguments; in particular an unknown node id, an empty query on a leaf and a
missing neighbor are each reported as content.  (`read_neighbor_node` and
`search_summaries` never raise on any store; only `examine_summary_node`
can — on an internal node with children whose own text is NULL,
`C9_counterexample`.) -/
theorem C9_navigator (s : Store)
    (hs : ∀ r ∈ s.summaries, r.summary_text ≠ none) :
    (∀ (sid : ℕ) (q : String) (sub : String → String → String),
      ∃ out, examine_summary_node s sid q sub = .ok out) ∧
    (∀ (nid : ℕ) (dir : String), ∃ out, read_neighbor_node s nid dir = .ok out) ∧
    (∀ q : String, ∃ out, search_summaries_tool s q = .ok out) ∧
    (∀ (sid : ℕ) (q : String) (sub : String → String → String),
      get_node_metadata s sid = none →
      examine_summary_node s sid q sub = .ok s!"Error: Node ID {sid} not found.") ∧
    (∀ (sid : ℕ) (sub : String → String → String) (node : NodeMeta),
      get_node_metadata s sid = some node → node.level = 0 →
      examine_summary_node s sid "" sub =
        .ok (s!"Node {sid} is a Leaf Node containing raw text. "
          ++ "To prevent context overflow, you must provide a specific 'query' argument "
          ++ s!"to analyze this text. (e.g., examine_summary_node({sid}, "
          ++ "query='What is the specific date mentioned?'))")) ∧
    (∀ nid : ℕ, (get_adjacent_nodes s nid).next = none →
      read_neighbor_node s nid "next" =
        .ok s!"No next node exists for Node {nid} (It might be the start/end of the section).") := by
  refine ⟨?_, ?_, ?_, ?_, ?_, ?_⟩
  · intro sid q sub
    unfold examine_summary_node
    cases hmeta : get_node_metadata s sid with
    | none => exact ⟨_, rfl⟩
    | some node =>
      dsimp only
      by_cases hlvl : 0 < node.level
      · rw [if_pos hlvl]
        by_cases hch : (get_child_summaries s sid).isEmpty
        · rw [if_pos hch]
          exact ⟨_, rfl⟩
        · rw [if_neg hch]
          obtain ⟨r, hr, hrt⟩ := get_node_metadata_text s sid node hmeta
          cases htxt : node.text with
          | none =>
            rw [htxt] at hrt
            exact absurd hrt.symm (hs r hr)
          | some txt => exact ⟨_, rfl⟩
      · rw [if_neg hlvl]
        by_cases hq : q = ""
        · rw [if_pos hq]
          exact ⟨_, rfl⟩
        · rw [if_neg hq]
          cases get_linked_chunk_id s sid with
          | none => exact ⟨_, rfl⟩
          | some cid =>
            dsimp only
            by_cases hc0 : cid = 0
            · rw [if_pos hc0]; exact ⟨_, rfl⟩
            · rw [if_neg hc0]
              cases get_chunk_text s cid with
              | none => exact ⟨_, rfl⟩
              | some raw =>
                dsimp only
                by_cases hraw : raw = ""
                · rw [if_pos hraw]; exact ⟨_, rfl⟩
                · rw [if_neg hraw]; exact ⟨_, rfl⟩
  · intro nid dir
    unfold read_neighbor_node
    by_cases hdir : dir ≠ "next" ∧ dir ≠ "prev" ∧ dir ≠ "parent"
    · rw [if_pos hdir]; exact ⟨_, rfl⟩
    · rw [if_neg hdir]
      dsimp only
      cases htgt : (if dir = "next" then (get_adjacent_nodes s nid).next
          else if dir = "prev" then (get_adjacent_nodes s nid).prev
          else (get_adjacent_nodes s nid).parent) with
      | none => exact ⟨_, rfl⟩
      | some tid =>
        dsimp only
        cases get_node_metadata s tid with
        | none => exact ⟨_, rfl⟩
        | some meta => exact ⟨_, rfl⟩
  · intro q
    unfold search_summaries_tool
    by_cases hq : q = "" ∨ stripChars q.data = []
    · rw [if_pos hq]; exact ⟨_, rfl⟩
    · rw [if_neg hq]
      dsimp only
      by_cases hm : (search_summaries s ⟨stripChars q.data⟩ 10).isEmpty
      · rw [if_pos hm]; exact ⟨_, rfl⟩
      · rw [if_neg hm]; exact ⟨_, rfl⟩
  · intro sid q sub hnone
    unfold examine_summary_node
    rw [hnone]
  · intro sid sub node hmeta hlvl
    unfold examine_summary_node
    rw [hmeta]
    have h1 : ¬ 0 < node.level := by omega
    simp [h1]
  · intro nid hnext
    unfold read_neighbor_node
    simp [hnext]
    rfl

/-- The concrete store for the C9 witness: one chunk, one leaf node, all
texts non-NULL. -/
def navStore : Store :=
  ⟨[⟨1, some "raw text", 0, 8, some "f"⟩], [⟨1, some "leaf", 0, none, 0, some 1⟩]⟩

/-- C9 witness: the amended claim applied at `navStore` with every hypothesis
discharged. -/
theorem C9_navigator_witness :
    (∃ out, examine_summary_node navStore 1 "" (fun _ _ => "ans") = .ok out) ∧
    (∃ out, read_neighbor_node navStore 1 "next" = .ok out) ∧
    (∃ out, search_summaries_tool navStore "leaf" = .ok out) ∧
    examine_summary_node navStore 99 "q" (fun _ _ => "ans") =
      .ok s!"Error: Node ID {(99 : ℕ)} not found." :=
  ⟨(C9_navigator navStore (by decide)).1 1 "" (fun _ _ => "ans"),
   (C9_navigator navStore (by decide)).2.1 1 "next",
   (C9_navigator navStore (by decide)).2.2.1 "leaf",
   (C9_navigator navStore (by decide)).2.2.2.1 99 "q" (fun _ _ => "ans") (by decide)⟩

/-! ## The fence pass leaves no triple backtick

Auxiliary facts used for C8: the output of `removeFences` contains no
occurrence of three consecutive backticks, its characters all come from the
input, and `hasSub` is monotone under prefix/suffix extension and
stripping. -/

/-- Length of the maximal leading run of backticks. -/
def leadTicks : List Char → ℕ
  | [] => 0
  | c :: t => if c = '`' then leadTicks t + 1 else 0

theorem leadTicks_cons_tick (t : List Char) :
    leadTicks ('`' :: t) = leadTicks t + 1 := by
  simp [leadTicks]

theorem leadTicks_cons_ne (c : Char) (t : List Char) (hc : c ≠ '`') :
    leadTicks (c :: t) = 0 := by
  simp [leadTicks, hc]

theorem replicate_tick_isPrefixOf_iff :
    ∀ (k : ℕ) (l : List Char),
      (List.replicate k '`').isPrefixOf l = true ↔ k ≤ leadTicks l := by
  intro k
  induction k with
  | zero => intro l; simp [List.isPrefixOf]
  | succ k ih =>
    intro l
    cases l with
    | nil => simp [List.replicate_succ, List.isPrefixOf, leadTicks]
    | cons c t =>
      simp only [List.replicate_succ, List.isPrefixOf, Bool.and_eq_true,
        beq_iff_eq]
      by_cases hc : c = '`'
      · subst hc
        rw [leadTicks_cons_tick, ih t]
        constructor
        · rintro ⟨_, h⟩; omega
        · intro h; exact ⟨rfl, by omega⟩
      · rw [leadTicks_cons_ne c t hc]
        constructor
        · rintro ⟨h, _⟩; exact absurd h.symm hc
        · intro h; omega

theorem trip_eq_replicate : "```".data = List.replicate 3 '`' := rfl

theorem trip_isPrefixOf_iff (l : List Char) :
    "```".data.isPrefixOf l = true ↔ 3 ≤ leadTicks l := by
  rw [trip_eq_replicate]
  exact replicate_tick_isPrefixOf_iff 3 l

theorem removeFencesF_invariant :
    ∀ (f : ℕ) (l : List Char), l.length ≤ f →
      hasSub (removeFencesF f l) "```".data = false ∧
      leadTicks (removeFencesF f l) ≤ leadTicks l ∧
      leadTicks (removeFencesF f l) ≤ 2 := by
  intro f
  induction f with
  | zero =>
    intro l hf
    have : l = [] := List.length_eq_zero.mp (Nat.le_antisymm hf (Nat.zero_le _))
    subst this
    exact ⟨rfl, le_refl _, Nat.zero_le _⟩
  | succ f ih =>
    intro l hf
    match l with
    | [] => exact ⟨rfl, le_refl _, Nat.zero_le _⟩
    | c :: cs =>
      have hcs : cs.length ≤ f := by simpa using hf
      by_cases hfence : "```".data.isPrefixOf (c :: cs) = true
      · have hstep : removeFencesF (f + 1) (c :: cs) =
            removeFencesF f
              (if (((c :: cs).drop 3).dropWhile isWordChar).head? = some '\n' then
                (((c :: cs).drop 3).dropWhile isWordChar).tail
              else ((c :: cs).drop 3).dropWhile isWordChar) := by
          simp only [removeFencesF, if_pos hfence]
        have hrlen : (((c :: cs).drop 3).dropWhile isWordChar).length ≤ f := by
          have h1 := List.Sublist.length_le
            (List.dropWhile_sublist (l := (c :: cs).drop 3) isWordChar)
          have h2 : ((c :: cs).drop 3).length ≤ cs.length := by
            simp only [List.length_drop, List.length_cons]
            omega
          omega
        have hrlen2 :
            (if (((c :: cs).drop 3).dropWhile isWordChar).head? = some '\n' then
              (((c :: cs).drop 3).dropWhile isWordChar).tail
            else ((c :: cs).drop 3).dropWhile isWordChar).length ≤ f := by
          split
          · have := List.length_tail (((c :: cs).drop 3).dropWhile isWordChar)
            omega
          · exact hrlen
        obtain ⟨i1, i2, i3⟩ := ih _ hrlen2
        rw [hstep]
        refine ⟨i1, ?_, i3⟩
        have h3 : 3 ≤ leadTicks (c :: cs) := (trip_isPrefixOf_iff _).mp hfence
        omega
      · have hstep : removeFencesF (f + 1) (c :: cs) =
            c :: removeFencesF f cs := by
          simp only [removeFencesF, hfence, Bool.false_eq_true, if_false]
        obtain ⟨i1, i2, i3⟩ := ih cs hcs
        rw [hstep]
        by_cases hc : c = '`'
        · subst hc
          have hlcs : leadTicks cs ≤ 1 := by
            by_contra hh
            apply hfence ∘ (trip_isPrefixOf_iff _).mpr
            rw [leadTicks_cons_tick]
            omega
          refine ⟨?_, ?_, ?_⟩
          · show (("```".data.isPrefixOf ('`' :: removeFencesF f cs)) ||
              hasSub (removeFencesF f cs) "```".data) = false
            rw [i1, Bool.or_false]
            rw [Bool.eq_false_iff]
            intro hpre
            have := (trip_isPrefixOf_iff _).mp hpre
            rw [leadTicks_cons_tick] at this
            omega
          · rw [leadTicks_cons_tick, leadTicks_cons_tick]
            omega
          · rw [leadTicks_cons_tick]; omega
        · refine ⟨?_, ?_, ?_⟩
          · show (("```".data.isPrefixOf (c :: removeFencesF f cs)) ||
              hasSub (removeFencesF f cs) "```".data) = false
            rw [i1, Bool.or_false, Bool.eq_false_iff]
            intro hpre
            have := (trip_isPrefixOf_iff _).mp hpre
            rw [leadTicks_cons_ne c _ hc] at this
            omega
          · rw [leadTicks_cons_ne c _ hc]
            exact Nat.zero_le _
          · rw [leadTicks_cons_ne c _ hc]
            exact Nat.zero_le _

theorem removeFences_no_trip (l : List Char) :
    hasSub (removeFences l) "```".data = false :=
  (removeFencesF_invariant l.length l (le_refl _)).1

theorem mem_removeFencesF :
    ∀ (f : ℕ) (l : List Char) (a : Char), a ∈ removeFencesF f l → a ∈ l := by
  intro f
  induction f with
  | zero => intro l a ha; exact ha
  | succ f ih =>
    intro l a ha
    match l with
    | [] => exact ha
    | c :: cs =>
      by_cases hfence : "```".data.isPrefixOf (c :: cs) = true
      · rw [show removeFencesF (f + 1) (c :: cs) =
            removeFencesF f
              (if (((c :: cs).drop 3).dropWhile isWordChar).head? = some '\n' then
                (((c :: cs).drop 3).dropWhile isWordChar).tail
              else ((c :: cs).drop 3).dropWhile isWordChar) from
            by simp only [removeFencesF, if_pos hfence]] at ha
        have ha2 := ih _ a ha
        have ha3 : a ∈ ((c :: cs).drop 3).dropWhile isWordChar := by
          revert ha2
          split
          · intro h
            have : (((c :: cs).drop 3).dropWhile isWordChar).tail =
                (((c :: cs).drop 3).dropWhile isWordChar).drop 1 := by
              simp [List.drop_one]
            rw [this] at h
            exact List.mem_of_mem_drop h
          · exact id
        have ha4 : a ∈ (c :: cs).drop 3 :=
          List.Sublist.mem ha3 (List.dropWhile_sublist _)
        exact List.mem_of_mem_drop ha4
      · rw [show removeFencesF (f + 1) (c :: cs) = c :: removeFencesF f cs from
            by simp only [removeFencesF, hfence, Bool.false_eq_true, if_false]] at ha
        rcases List.mem_cons.mp ha with h | h
        · exact h ▸ List.mem_cons_self _ _
        · exact List.mem_cons_of_mem _ (ih cs a h)

theorem hasSub_of_isPrefixOf (w n : List Char) (h : n.isPrefixOf w = true) :
    hasSub w n = true := by
  cases w with
  | nil =>
    have : n = [] := by simpa using List.isPrefixOf_iff_prefix.mp h
    simp [hasSub, this]
  | cons c cs => simp [hasSub, h]

theorem hasSub_mem (w n : List Char) (a : Char) (h : hasSub w n = true)
    (ha : a ∈ n) : a ∈ w := by
  induction w with
  | nil =>
    have : n = [] := by simpa [hasSub, List.isEmpty_iff] using h
    subst this
    cases ha
  | cons c cs ih =>
    simp only [hasSub, Bool.or_eq_true] at h
    rcases h with h | h
    · exact List.Sublist.mem ha
        (List.IsPrefix.sublist (List.isPrefixOf_iff_prefix.mp h))
    · exact List.mem_cons_of_mem _ (ih h)

theorem hasSub_nil_needle (w : List Char) : hasSub w [] = true := by
  cases w <;> simp [hasSub, List.isPrefixOf]

theorem hasSub_append_right (q rest n : List Char) (h : hasSub q n = true) :
    hasSub (q ++ rest) n = true := by
  induction q with
  | nil =>
    have : n = [] := by simpa [hasSub, List.isEmpty_iff] using h
    subst this
    exact hasSub_nil_needle rest
  | cons c cs ih =>
    simp only [hasSub, Bool.or_eq_true] at h ⊢
    rcases h with h | h
    · exact Or.inl (List.isPrefixOf_iff_prefix.mpr
        (List.IsPrefix.trans (List.isPrefixOf_iff_prefix.mp h) (List.prefix_append _ _)))
    · exact Or.inr (ih h)

theorem hasSub_prepend (l n : List Char) (h : hasSub l n = true) :
    ∀ pre : List Char, hasSub (pre ++ l) n = true := by
  intro pre
  induction pre with
  | nil => exact h
  | cons c cs ih => exact hasSub_tail c _ n ih

theorem hasSub_of_suffix (w l n : List Char) (hsuf : l <:+ w)
    (h : hasSub l n = true) : hasSub w n = true := by
  obtain ⟨pre, hpre⟩ := hsuf
  rw [← hpre]
  exact hasSub_prepend l n h pre

theorem hasSub_strip (m n : List Char) (h : hasSub (stripChars m) n = true) :
    hasSub m n = true := by
  unfold stripChars at h
  set A := m.dropWhile isPySpace with hA
  obtain ⟨u, hu⟩ := List.dropWhile_suffix (l := A.reverse) isPySpace
  have hsplit : A = (A.reverse.dropWhile isPySpace).reverse ++ u.reverse := by
    have : A.reverse.reverse = (u ++ A.reverse.dropWhile isPySpace).reverse := by
      rw [hu]
    simpa [List.reverse_append] using this
  have h2 : hasSub A n = true := by
    rw [hsplit]
    exact hasSub_append_right _ _ n h
  exact hasSub_of_suffix m A n (hA ▸ List.dropWhile_suffix isPySpace) h2

theorem removeHashesF_id :
    ∀ (f : ℕ) (l : List Char), l.length ≤ f → hasSub l "###".data = false →
      removeHashesF f l = l := by
  intro f
  induction f with
  | zero => intro l _ _; rfl
  | succ f ih =>
    intro l hf hsub
    match l with
    | [] => rfl
    | c :: cs =>
      have hpre : "###".data.isPrefixOf (c :: cs) = false := by
        simp only [hasSub, Bool.or_eq_false_iff] at hsub
        exact hsub.1
      have htail : hasSub cs "###".data = false := by
        simp only [hasSub, Bool.or_eq_false_iff] at hsub
        exact hsub.2
      simp only [removeHashesF, hpre, Bool.false_eq_true, if_false]
      exact congrArg (c :: ·) (ih cs (by simpa using hf) htail)

theorem removeHashes_id (l : List Char) (h : hasSub l "###".data = false) :
    removeHashes l = l :=
  removeHashesF_id l.length l (le_refl _) h

/-- If a text contains no lower-case `<think>` and no `#` character, its
sanitized form does not begin with a triple-backtick fence: the fence pass
leaves no ````` ``` ```` anywhere, the hash pass is then the identity, and
stripping cannot create an occurrence. -/
theorem clean_no_fence (t : String)
    (hthink : hasSub t.data "<think>".data = false)
    (hhash : '#' ∉ t.data) :
    "```".data.isPrefixOf (clean_summary_text t).data = false := by
  by_cases ht0 : t = ""
  · subst ht0
    rfl
  · unfold clean_summary_text
    rw [if_neg ht0]
    have e1 : removeThinks t.data = t.data :=
      removeThinks_id_of_not_open t.data hthink
    rw [e1]
    have e2 : removeHashes (removeFences t.data) = removeFences t.data := by
      apply removeHashes_id
      rw [Bool.eq_false_iff]
      intro hcc
      exact hhash (mem_removeFencesF t.data.length (t.data) '#'
        (hasSub_mem _ _ '#' hcc (by decide)))
    rw [e2]
    rw [Bool.eq_false_iff]
    intro hpre
    have h1 : hasSub (stripChars (stripChars (removeFences t.data))) "```".data = true :=
      hasSub_of_isPrefixOf _ _ hpre
    have h2 := hasSub_strip _ _ (hasSub_strip _ _ h1)
    rw [removeFences_no_trip t.data] at h2
    cases h2

/-! ## Repair (`DatabaseValidator.repair`)

The LLM behind `_get_summary_from_llm` (credential queue, rotator, retries,
its own sanitization) is an oracle `gen : String → String` from prompt to the
final summary string; the thread pools preserve the pairing of inputs and
results, so the parallel phases are modelled as sequential folds in input
order. -/

/-- Python truthiness of a nullable integer (`row[4]` in
`get_summary_with_context`). -/
def pyTruthyNat : Option ℕ → Bool
  | none => false
  | some n => !(n == 0)

/-- What `get_summary_with_context` returns. -/
structure SummaryContext where
  id : ℕ
  level : ℕ
  parent_id : Option ℕ
  sequence_index : ℕ
  chunk_id : Option ℕ
  chunk_text : Option String
  child_texts : List (Option String)
deriving DecidableEq

/-- `StorageEngine.get_summary_with_context`: chunk text for a level-0 row
with truthy `chunk_id`, child summary texts (ordered) otherwise. -/
def get_summary_with_context (s : Store) (sid : ℕ) : Option SummaryContext :=
  (s.summaries.find? (fun r => r.id == sid)).map (fun row =>
    if row.level == 0 && pyTruthyNat row.chunk_id then
      { id := row.id, level := row.level, parent_id := row.parent_id,
        sequence_index := row.sequence_index, chunk_id := row.chunk_id,
        chunk_text := row.chunk_id.bind (fun cid => get_chunk_text s cid),
        child_texts := [] }
    else
      { id := row.id, level := row.level, parent_id := row.parent_id,
        sequence_index := row.sequence_index, chunk_id := row.chunk_id,
        chunk_text := none,
        child_texts := ((s.summaries.filter (fun r => r.parent_id == some sid))
          |> sortBy (fun a b => decide (a.sequence_index ≤ b.sequence_index))).map
          (fun r => r.summary_text) })

/-- The leaf prompt (validator and repair, §6.1). -/
def leafPrompt (t : String) : String :=
  "Summarize the following document segment. Identify key topics, entities, and events:\n\n" ++ t

/-- The synthesis prompt (§6.1). -/
def synthPrompt (t : String) : String :=
  "Synthesize the following summaries into a cohesive higher-level summary:\n\n" ++ t

/-- The counters `repair` returns. -/
structure RepairStats where
  cleaned : ℕ
  regenerated : ℕ
  failed : ℕ
  generated_level_0 : ℕ
  generated_hierarchy : ℕ
deriving DecidableEq

/-- One level-0 regeneration of phase 2: a future is submitted only for a
truthy `chunk_text`; a result that is empty or contains `"Error"` counts as
failed, otherwise the text is updated. -/
def regen_leaf_step (gen : String → String) (acc : Store × ℕ × ℕ)
    (item : ℕ × SummaryContext) : Store × ℕ × ℕ :=
  match item.2.chunk_text with
  | none => acc
  | some t =>
    if t = "" then acc
    else
      let new := gen (leafPrompt t)
      if new ≠ "" ∧ hasSub new.data "Error".data = false then
        (update_summary_text acc.1 item.1 new, acc.2.1 + 1, acc.2.2)
      else (acc.1, acc.2.1, acc.2.2 + 1)

/-- One higher-level regeneration of phase 2 (submitted only for a non-empty
child list).  A NULL child text would make the source's `"\n\n".join` raise;
it is rendered as `""` here — the claims' stores carry no NULL texts. -/
def regen_higher_step (gen : String → String) (acc : Store × ℕ × ℕ)
    (item : ℕ × SummaryContext) : Store × ℕ × ℕ :=
  if item.2.child_texts = [] then acc
  else
    let combined := String.intercalate "\n\n" (item.2.child_texts.map (fun o => o.getD ""))
    let new := gen (synthPrompt combined)
    if new ≠ "" ∧ hasSub new.data "Error".data = false then
      (update_summary_text acc.1 item.1 new, acc.2.1 + 1, acc.2.2)
    else (acc.1, acc.2.1, acc.2.2 + 1)

/-- `DatabaseValidator._regenerate_summaries_parallel`: contexts are all
fetched up front, then the level-0 items and the higher-level items are
processed (each group in input order). -/
def regenerate_summaries (gen : String → String) (s : Store) (sids : List ℕ) :
    Store × ℕ × ℕ :=
  let ctxs := sids.filterMap (fun sid =>
    (get_summary_with_context s sid).map (fun c => (sid, c)))
  let level0 := ctxs.filter (fun p => p.2.level == 0)
  let higher := ctxs.filter (fun p => !(p.2.level == 0))
  higher.foldl (regen_higher_step gen) (level0.foldl (regen_leaf_step gen) (s, 0, 0))

/-- One missing-leaf generation of phase 3 (`None` chunk text renders as
`"None"` in the f-string prompt). -/
def fill_leaf_step (gen : String → String) (acc : Store × ℕ × ℕ)
    (p : ℕ × Option String) : Store × ℕ × ℕ :=
  let ctext := match p.2 with
    | some t => t
    | none => "None"
  let new := gen (leafPrompt ctext)
  if new ≠ "" ∧ hasSub new.data "Error".data = false then
    let seq := get_next_sequence_index acc.1 0
    let added := add_summary acc.1 new 0 none seq
    (link_summary_to_chunk added.1 added.2 p.1, acc.2.1 + 1, acc.2.2)
  else (acc.1, acc.2.1, acc.2.2 + 1)

/-- `DatabaseValidator._generate_missing_level_0_summaries_parallel`. -/
def generate_missing_level0 (gen : String → String) (s : Store)
    (missing : List (ℕ × Option String)) : Store × ℕ × ℕ :=
  missing.foldl (fill_leaf_step gen) (s, 0, 0)

/-- One level of `_complete_hierarchy_parallel`: batch the orphans, build the
synthesis prompts from the batch texts (falsy texts dropped by the
`if t` filter), generate, then insert each parent at `current_level + 1` with
the batch ordinal as sequence index and point the children at it. -/
def complete_hier_once (gen : String → String) (group_size : ℕ)
    (current_level : ℤ) (s : Store) : Store × ℕ × ℕ :=
  let orphan_ids := get_orphan_summaries s
  let batches := groupsOf group_size orphan_ids
  let results := batches.map (fun b =>
    gen (synthPrompt (String.intercalate "\n\n"
      ((get_summaries s b).filterMap (fun o =>
        o.bind (fun t => if t = "" then none else some t))))))
  (batches.zip results).enum.foldl (fun acc q =>
    let seq_idx := q.1
    let batch := q.2.1
    let text := q.2.2
    if text ≠ "" ∧ hasSub text.data "Error".data = false then
      let added := add_summary acc.1 text (current_level + 1).toNat none seq_idx
      let s3 := batch.foldl (fun st child => update_summary_parent st child added.2) added.1
      (s3, acc.2.1 + 1, acc.2.2)
    else (acc.1, acc.2.1, acc.2.2 + 1)) (s, 0, 0)

/-- The `while current_level < max_depth` loop of
`_complete_hierarchy_parallel`; the level counter increments per iteration,
so `(max_depth - start).toNat` bounds the iteration count and serves as
fuel. -/
def complete_hierarchy_loop (gen : String → String) (group_size : ℕ)
    (max_depth : ℤ) : ℕ → ℤ → Store → Store × ℕ × ℕ
  | 0, _, s => (s, 0, 0)
  | fuel + 1, current_level, s =>
    if current_level < max_depth then
      let orphan_ids := get_orphan_summaries s
      if orphan_ids.length ≤ 1 then (s, 0, 0)
      else
        let r1 := complete_hier_once gen group_size current_level s
        let r2 := complete_hierarchy_loop gen group_size max_depth fuel
          (current_level + 1) r1.1
        (r2.1, r1.2.1 + r2.2.1, r1.2.2 + r2.2.2)
    else (s, 0, 0)

def complete_hierarchy (gen : String → String) (group_size : ℕ) (max_depth : ℤ)
    (s : Store) : Store × ℕ × ℕ :=
  let current_level := get_max_summary_level s
  complete_hierarchy_loop gen group_size max_depth (max_depth - current_level).toNat
    current_level s

/-- `DatabaseValidator.repair` with `dry_run = False` and `issues = None`
(so `validate()` is called): clean think/markdown issues, regenerate provider
errors, fill missing leaves, then extend the hierarchy after re-checking the
orphans on the current store. -/
def repair (gen : String → String) (group_size : ℕ) (max_depth : ℤ) (s : Store) :
    Store × RepairStats :=
  let issues := validate s
  let cleanable := issues.think_blocks ++ issues.markdown_prefix
  let p1 := cleanable.foldl (fun acc p =>
      let cleaned := clean_summary_text p.2
      if cleaned ≠ "" ∧ cleaned ≠ p.2 then
        (update_summary_text acc.1 p.1 cleaned, acc.2 + 1)
      else acc) (s, 0)
  let p2 := regenerate_summaries gen p1.1 (issues.provider_error.map (fun q => q.1))
  let p3 := generate_missing_level0 gen p2.1
    issues.incomplete_summaries.missing_level_0
  let orphan_ids := get_orphan_summaries p3.1
  let cml := get_max_summary_level p3.1
  let p4 := if 1 < orphan_ids.length ∧ cml < max_depth then
      complete_hierarchy gen group_size max_depth p3.1
    else (p3.1, 0, 0)
  (p4.1, { cleaned := p1.2, regenerated := p2.2.1,
           failed := p2.2.2 + p3.2.2 + p4.2.2,
           generated_level_0 := p3.2.1, generated_hierarchy := p4.2.1 })

theorem regenerate_summaries_nil (gen : String → String) (st : Store) :
    regenerate_summaries gen st [] = (st, 0, 0) := rfl

theorem generate_missing_level0_nil (gen : String → String) (st : Store) :
    generate_missing_level0 gen st [] = (st, 0, 0) := rfl

/-- C8 counterexample: (i) a node whose text starts with a bare (or
non-`markdown`) triple-backtick fence is not classified at all — only a
stripped `"```markdown"` prefix is checked — so repair reports `cleaned = 0`
and the text still begins with a fence; (ii) a node whose whole text is
`"```markdown"` is classified, but its sanitized form is empty, so the
`if cleaned and cleaned != text` guard skips it: again `cleaned = 0` and the
fence stays. -/
theorem C8_counterexample :
    repair (fun _ => "S") 5 1 ⟨[], [⟨1, some "```\nhello", 0, none, 0, none⟩]⟩ =
      (⟨[], [⟨1, some "```\nhello", 0, none, 0, none⟩]⟩, ⟨0, 0, 0, 0, 0⟩) ∧
    repair (fun _ => "S") 5 1 ⟨[], [⟨1, some "```markdown", 0, none, 0, none⟩]⟩ =
      (⟨[], [⟨1, some "```markdown", 0, none, 0, none⟩]⟩, ⟨0, 0, 0, 0, 0⟩) := by
  decide

/-- C8 (amended): a node is classified under `markdown_prefix` (the spec's
`code_fence`) exactly when its stripped text starts with `"```markdown"`.
For a store whose broken-summary scan finds only such a node `(i, t)` — with
sanitized text non-empty and different from `t`, no chunks missing leaves,
and at most one orphan after the rewrite — `repair` rewrites the node's text
to `clean_summary_text t` and reports `cleaned = 1`, `regenerated = 0` (and
every other counter 0); moreover the sanitized text no longer begins with a
code fence whenever `t` carries no think-tags and no `#` characters (which
the other sanitizer passes could fuse into a new fence). -/
theorem C8_repair_cleans (gen : String → String) (max_depth : ℤ) (s : Store)
    (i : ℕ) (t : String)
    (hscan : get_broken_summaries s = ⟨[], [], [(i, t)]⟩)
    (hc1 : clean_summary_text t ≠ "")
    (hc2 : clean_summary_text t ≠ t)
    (hmiss : get_chunks_without_summaries s = [])
    (horph : (get_orphan_summaries (update_summary_text s i (clean_summary_text t))).length ≤ 1) :
    repair gen 5 max_depth s =
      (update_summary_text s i (clean_summary_text t), ⟨1, 0, 0, 0, 0⟩) ∧
    (hasSub t.data "<think>".data = false → '#' ∉ t.data →
      "```".data.isPrefixOf ((clean_summary_text t).data) = false) := by
  constructor
  · have hp : (get_broken_summaries s).provider_error = [] := by rw [hscan]
    have hth : (get_broken_summaries s).think_blocks = [] := by rw [hscan]
    have hmk : BrokenSummaries.markdown_prefix (get_broken_summaries s) = [(i, t)] := by rw [hscan]
    have hguard : ¬(1 < (get_orphan_summaries
          (update_summary_text s i (clean_summary_text t))).length ∧
        get_max_summary_level (update_summary_text s i (clean_summary_text t)) <
          max_depth) := by
      rintro ⟨hgt, _⟩
      omega
    simp only [repair, validate, hp, hth, hmk, hmiss, List.nil_append,
      List.foldl_cons, List.foldl_nil, List.map_nil,
      regenerate_summaries_nil, generate_missing_level0_nil]
    rw [if_pos (And.intro hc1 hc2)]
    simp only [regenerate_summaries_nil, generate_missing_level0_nil]
    rw [if_neg hguard]
    rfl
  · intro h1 h2
    exact clean_no_fence t h1 h2

/-- C8 witness: a store whose only node carries a `"```markdown"` fence; the
repair rewrites it to the sanitized text with `cleaned = 1`, `regenerated =
0`, and the result does not begin with a fence. -/
theorem C8_repair_cleans_witness :
    repair (fun _ => "S") 5 1
        ⟨[], [⟨1, some "```markdown\nHello world", 0, none, 0, none⟩]⟩ =
      (update_summary_text
        ⟨[], [⟨1, some "```markdown\nHello world", 0, none, 0, none⟩]⟩ 1
        (clean_summary_text "```markdown\nHello world"), ⟨1, 0, 0, 0, 0⟩) ∧
    "```".data.isPrefixOf ((clean_summary_text "```markdown\nHello world").data) =
      false := by
  have h := C8_repair_cleans (fun _ => "S") 1
    ⟨[], [⟨1, some "```markdown\nHello world", 0, none, 0, none⟩]⟩ 1
    "```markdown\nHello world" (by decide) (by decide) (by decide) (by decide)
    (by decide)
  exact ⟨h.1, h.2 (by decide) (by decide)⟩

end RLM
